import Mathlib

/-!
# Verification of AndroidMetrics core collection and storage logic

A shallow embedding of the monitoring pipeline of the AndroidMetrics
repository: the two-tier cache and batch ADB executor of
`src/core/adb_collector.py`, the adaptive collection intervals, the
two-phase per-app command construction, the heuristic power estimator,
the network parsers, the buffered writer of
`src/android_metrics/database/data_storage.py`, and the retrying
single-command runner.  Machine text is modelled as `List Char`,
Python floats as `ℚ`, Python dicts as association lists that preserve
insertion order (updates keep the position of an existing key, fresh
keys are appended), and fallible operations return `Option`.
-/

namespace AndroidMetrics

/-! ## Basic helpers: text splitting, integer parsing, rounding -/

/-- Text is a list of characters (Python `str`). -/
abbrev Str := List Char

/-- Split a character list at every occurrence of `sep`
(Python `s.split(sep)` for a single-character separator). -/
def splitOnChar (sep : Char) : Str → List Str
  | [] => [[]]
  | x :: xs =>
    match splitOnChar sep xs with
    | [] => [[]]
    | r :: rs => if x = sep then [] :: r :: rs else (x :: r) :: rs

/-- Python whitespace characters recognised by `str.strip` / `str.split()`. -/
def isPySpace (c : Char) : Bool :=
  c = ' ' || c = '\t' || c = '\n' || c = '\r' || c = '\x0b' || c = '\x0c'

/-- Python `s.strip()`: remove leading and trailing whitespace. -/
def pyStrip (s : Str) : Str :=
  ((s.dropWhile isPySpace).reverse.dropWhile isPySpace).reverse

/-- Split a character list at every character satisfying `p`. -/
def splitWhen (p : Char → Bool) : Str → List Str
  | [] => [[]]
  | x :: xs =>
    match splitWhen p xs with
    | [] => [[]]
    | r :: rs => if p x then [] :: r :: rs else (x :: r) :: rs

/-- Python `s.split()` with no argument: split on whitespace runs,
dropping empty fields. -/
def pyWords (s : Str) : List Str :=
  (splitWhen isPySpace s).filter (fun w => w ≠ [])

/-- Decimal digits of a token, `none` unless every character is a digit
and the token is nonempty. -/
def digitsToNat : Str → Option ℕ
  | [] => none
  | [c] => if c.isDigit then some (c.toNat - '0'.toNat) else none
  | c :: cs =>
    match digitsToNat cs, c.isDigit with
    | some n, true => some ((c.toNat - '0'.toNat) * 10 ^ cs.length + n)
    | _, _ => none

/-- Python `int(token)` on an optionally signed decimal token
(`ValueError` becomes `none`). -/
def pyInt (s : Str) : Option ℤ :=
  match s with
  | '-' :: rest => (digitsToNat rest).map (fun n => -(n : ℤ))
  | '+' :: rest => (digitsToNat rest).map (fun n => (n : ℤ))
  | _ => (digitsToNat s).map (fun n => (n : ℤ))

/-- Does `needle` occur at the start of `hay`?  (Python `startswith`.) -/
def beginsWith : Str → Str → Bool
  | [], _ => true
  | _ :: _, [] => false
  | a :: as, b :: bs => a = b && beginsWith as bs

/-- Does `needle` occur anywhere inside `hay`?  (Python `in` on strings.) -/
def containsSeg (needle : Str) : Str → Bool
  | [] => beginsWith needle []
  | c :: rest => beginsWith needle (c :: rest) || containsSeg needle rest

/-- Python `round(x, 2)`: round to two decimal places. -/
def round2 (q : ℚ) : ℚ := (round (q * 100) : ℤ) / 100

/-- Clamp `x` into `[lo, hi]` the way the Python code writes it:
`max lo (min x hi)`. -/
def pyClamp (lo hi x : ℚ) : ℚ := max lo (min x hi)

/-! ## Association lists with Python-dict semantics

Python dict assignment keeps the position of an existing key and appends
a fresh key; `del` removes the entry; iteration follows insertion order.
`min(d.keys(), key=...)` returns the first key attaining the minimum. -/

/-- Dict lookup `d.get(k)` / `k in d`. -/
def lookupKey {α : Type} : List (Str × α) → Str → Option α
  | [], _ => none
  | p :: rest, k => if p.1 = k then some p.2 else lookupKey rest k

/-- Dict deletion `del d[k]`. -/
def eraseKey {α : Type} (l : List (Str × α)) (k : Str) : List (Str × α) :=
  l.filter (fun p => p.1 ≠ k)

/-- Dict assignment `d[k] = v`: replace in place, or append a fresh key. -/
def upsert {α : Type} : List (Str × α) → Str → α → List (Str × α)
  | [], k, v => [(k, v)]
  | p :: rest, k, v => if p.1 = k then (k, v) :: rest else p :: upsert rest k v

/-! ## EnhancedCache (`src/core/adb_collector.py`, class `EnhancedCache`)

Two tiers `l1_cache` / `l2_cache`; entries store the cached data and the
`time` stamp recorded at `put`.  `get` serves tier-1 entries younger than
`ttl`, deletes older ones, then serves tier-2 entries younger than
`2*ttl` after promoting them to tier-1 (keeping their original stamp),
and deletes older ones.  `put` first demotes the oldest tier-1 entry to
tier-2 when tier-1 is full, inserts, then drops the oldest tier-2 entry
when tier-2 is full. -/

structure CacheEntry where
  data : ℤ
  time : ℚ
deriving DecidableEq

/-- `min(cache.keys(), key=lambda k: cache[k]['time'])`, paired with its
entry; the first key attaining the minimal stamp wins ties. -/
def oldestEntry (l : List (Str × CacheEntry)) : Option (Str × CacheEntry) :=
  l.foldl
    (fun acc p =>
      match acc with
      | none => some p
      | some q => if p.2.time < q.2.time then some p else some q)
    none

structure EnhancedCache where
  l1 : List (Str × CacheEntry)
  l2 : List (Str × CacheEntry)
  maxL1 : ℕ
  maxL2 : ℕ
deriving DecidableEq

/-- `EnhancedCache.__init__`: empty tiers, `max_l1_size = 100`,
`max_l2_size = 500`. -/
def EnhancedCache.init : EnhancedCache := ⟨[], [], 100, 500⟩

/-- Outcome of a `get`, mirroring which `cache_stats` counter the code
bumps and what it returns (`miss` is the fetchless `return None`). -/
inductive GetOutcome
  | l1Hit (d : ℤ)
  | l2Hit (d : ℤ)
  | miss
deriving DecidableEq

/-- Tier-2 half of `EnhancedCache.get`: promote a fresh enough entry to
tier-1 (original stamp kept), delete a stale one. -/
def EnhancedCache.getL2 (c : EnhancedCache) (key : Str) (ttl now : ℚ) :
    GetOutcome × EnhancedCache :=
  match lookupKey c.l2 key with
  | some e =>
    if now - e.time < ttl * 2 then
      (.l2Hit e.data, { c with l1 := upsert c.l1 key e, l2 := eraseKey c.l2 key })
    else
      (.miss, { c with l2 := eraseKey c.l2 key })
  | none => (.miss, c)

/-- `EnhancedCache.get(key, ttl)` at clock time `now`, without a
`fetch_func` (a miss returns `None`). -/
def EnhancedCache.get (c : EnhancedCache) (key : Str) (ttl now : ℚ) :
    GetOutcome × EnhancedCache :=
  match lookupKey c.l1 key with
  | some e =>
    if now - e.time < ttl then (.l1Hit e.data, c)
    else EnhancedCache.getL2 { c with l1 := eraseKey c.l1 key } key ttl now
  | none => EnhancedCache.getL2 c key ttl now

/-- `EnhancedCache.put(key, data, timestamp)`. -/
def EnhancedCache.put (c : EnhancedCache) (key : Str) (data : ℤ)
    (timestamp : ℚ) : EnhancedCache :=
  let c1 :=
    if c.maxL1 ≤ c.l1.length then
      match oldestEntry c.l1 with
      | some p => { c with l1 := eraseKey c.l1 p.1, l2 := upsert c.l2 p.1 p.2 }
      | none => c
    else c
  let c2 := { c1 with l1 := upsert c1.l1 key ⟨data, timestamp⟩ }
  if c2.maxL2 ≤ c2.l2.length then
    match oldestEntry c2.l2 with
    | some p => { c2 with l2 := eraseKey c2.l2 p.1 }
    | none => c2
  else c2

/-- A sequence of `put` calls. -/
def putSeq (c : EnhancedCache) (items : List (Str × ℤ × ℚ)) : EnhancedCache :=
  items.foldl (fun acc it => acc.put it.1 it.2.1 it.2.2) c

/-- The tier entry a `put` item turns into. -/
def toEntry (it : Str × ℤ × ℚ) : Str × CacheEntry := (it.1, ⟨it.2.1, it.2.2⟩)

/-- Tier-1 contents after filling an empty cache of tier-1 capacity
`N1` with the entries `E` (fresh keys, increasing stamps): the last
`N1` of them. -/
def cacheL1State (N1 : ℕ) (E : List (Str × CacheEntry)) :
    List (Str × CacheEntry) :=
  E.drop (E.length - N1)

/-- Tier-2 contents in the same situation: the `d = |E| - N1` demoted
oldest entries while `d < N2`, and from then on a window of the
`N2 - 1` most recent demoted entries. -/
def cacheL2State (N1 N2 : ℕ) (E : List (Str × CacheEntry)) :
    List (Str × CacheEntry) :=
  let d := E.length - N1
  if d < N2 then E.take d else (E.take d).drop (d - N2 + 1)

/-! ## Adaptive collection intervals
(`ADBCollector.__init__` / `ADBCollector.optimize_collection_intervals`) -/

/-- The telemetry domains keyed in `self._collection_intervals`. -/
inductive CollectionDomain
  | system_performance
  | app_basic
  | app_detailed
  | network_stats
  | device_info
deriving DecidableEq

/-- The base intervals installed by `ADBCollector.__init__` (seconds). -/
def baseCollectionIntervals : CollectionDomain → ℚ
  | .system_performance => 3
  | .app_basic => 2
  | .app_detailed => 5
  | .network_stats => 4
  | .device_info => 60

/-- One call of `optimize_collection_intervals` given the cache hit
rate: scale every interval by `1.1` when `hit_rate > 0.8`, by `0.9`
when `hit_rate < 0.3`, then clamp every interval to `[1.0, 10.0]`. -/
def optimizeCollectionIntervals (hit_rate : ℚ)
    (intervals : CollectionDomain → ℚ) : CollectionDomain → ℚ :=
  fun k =>
    let scaled :=
      if 8 / 10 < hit_rate then intervals k * (11 / 10)
      else if hit_rate < 3 / 10 then intervals k * (9 / 10)
      else intervals k
    pyClamp 1 10 scaled

/-- A sequence of `optimize_collection_intervals` calls, one per
observed hit rate. -/
def optimizeSeq (intervals : CollectionDomain → ℚ) (rates : List ℚ) :
    CollectionDomain → ℚ :=
  rates.foldl (fun f h => optimizeCollectionIntervals h f) intervals

/-! ## BatchADBExecutor (`src/core/adb_collector.py`)

`execute_batch` submits one future per `(command_id, command)` pair into
a dict keyed by `command_id` (a duplicate id overwrites its future),
then collects `future.result(...)` per id; any exception — a command
that fails, throws, or times out — is caught and recorded as `None` for
that id only.  `run : Str → Option Str` abstracts the joint outcome of
`_execute_single_command` and `future.result`: every failure mode of a
command is `none`, and distinct commands' outcomes are independent. -/

/-- `BatchADBExecutor.execute_batch`. -/
def executeBatch (commands : List (Str × Str)) (run : Str → Option Str) :
    List (Str × Option Str) :=
  let futures := commands.foldl (fun d p => upsert d p.1 p.2) []
  futures.map (fun p => (p.1, run p.2))

/-- Demo batch for the witness: five commands with distinct ids, two of
them (`bad1`, `bad2`) constructed to fail. -/
def batchDemoCommands : List (Str × Str) :=
  [(['c', '1'], ['o', 'k', '1']),
   (['c', '2'], ['b', 'a', 'd', '1']),
   (['c', '3'], ['o', 'k', '2']),
   (['c', '4'], ['b', 'a', 'd', '2']),
   (['c', '5'], ['o', 'k', '3'])]

/-- Demo outcome map for the witness: the two `bad` commands fail (an
invalid command raises, yielding `None`), the rest succeed. -/
def batchDemoRun : Str → Option Str :=
  fun c =>
    if c = ['b', 'a', 'd', '1'] ∨ c = ['b', 'a', 'd', '2'] then none
    else some ('r' :: c)

/-! ## Power estimator (`ADBCollector._estimate_power_consumption`)

Inputs abstract the metric probes the estimator consults:
`cpu_usage` is `_get_app_cpu_usage` (current CPU percentage or `None`),
`memory_pss` is `memory_info['memory_pss']` when present (KB),
`foreground` is `_is_app_in_foreground` (`none` when detection raises,
falling back to multiplier `1.0`), and `networkActive` tells whether the
netstats probe reported rx/tx/bytes activity. -/

structure PowerInputs where
  cpu_usage : Option ℚ
  memory_pss : Option ℚ
  foreground : Option Bool
  networkActive : Bool

/-- `components_found`: base power always counts one component; CPU
counts when present and positive, memory when `memory_pss` is present,
network when activity was detected. -/
def powerComponentsCount (inp : PowerInputs) : ℕ :=
  1 +
    (match inp.cpu_usage with
     | some cpu => if 0 < cpu then 1 else 0
     | none => 0) +
    (match inp.memory_pss with
     | some _ => 1
     | none => 0) +
    (if inp.networkActive then 1 else 0)

/-- `total_power` before the foreground multiplier: base `5.0`, plus
`min(cpu * 0.8, 50)`, plus `min(memory_mb * 0.02, 20)` with
`memory_mb = memory_pss / 1024`, plus the network bonus `8.0`. -/
def powerTotalRaw (inp : PowerInputs) : ℚ :=
  5 +
    (match inp.cpu_usage with
     | some cpu => if 0 < cpu then min (cpu * (8 / 10)) 50 else 0
     | none => 0) +
    (match inp.memory_pss with
     | some pss => min (pss / 1024 * (2 / 100)) 20
     | none => 0) +
    (if inp.networkActive then 8 else 0)

/-- `foreground_multiplier`: `1.8` in the foreground, `0.4` in the
background, `1.0` when detection fails. -/
def foregroundMultiplier (inp : PowerInputs) : ℚ :=
  match inp.foreground with
  | some true => 9 / 5
  | some false => 2 / 5
  | none => 1

/-- `ADBCollector._estimate_power_consumption`: clamp the multiplied
total into `[0.1, 150]`, round to two decimals, and return it only when
more than one component contributed (else `None`, never a fabricated
zero). -/
def estimatePowerConsumption (inp : PowerInputs) : Option ℚ :=
  if 1 < powerComponentsCount inp then
    some (round2 (pyClamp (1 / 10) 150 (powerTotalRaw inp * foregroundMultiplier inp)))
  else none

/-- Extreme demo input for the witness: 100% CPU, a very large PSS
(1 TB in KB), foreground, with network activity. -/
def powerDemoExtreme : PowerInputs :=
  ⟨some 100, some 1000000000, some true, true⟩

/-- Sparse demo input for the witness: no CPU reading, no PSS, no
network activity — only the base component. -/
def powerDemoSparse : PowerInputs :=
  ⟨none, none, some false, false⟩

/-! ## Two-phase per-app collection
(`ADBCollector.get_multiple_app_performance` /
`ADBCollector._get_actual_process_name_from_top`) -/

/-- Loop body of `_get_actual_process_name_from_top`: scan the lines of
the top snapshot for one that contains the package name, is not the
grep/shell command itself, has at least 11 whitespace-separated fields,
and whose last field starts with the package name; return that last
field. -/
def findProcessLine (pkg : Str) : List Str → Option Str
  | [] => none
  | line :: rest =>
    if containsSeg pkg line then
      if containsSeg "grep".data line || containsSeg "sh -c".data line then
        findProcessLine pkg rest
      else
        let parts := pyWords line
        if 11 ≤ parts.length then
          match parts.getLast? with
          | some pn =>
            if beginsWith pkg pn then some pn else findProcessLine pkg rest
          | none => findProcessLine pkg rest
        else findProcessLine pkg rest
    else findProcessLine pkg rest

/-- `ADBCollector._get_actual_process_name_from_top(top_output, package_name)`. -/
def getActualProcessNameFromTop (topOutput pkg : Str) : Option Str :=
  findProcessLine pkg (splitOnChar '\n' (pyStrip topOutput))

/-- `actual_process_names[package_name]`: the name resolved from the
shared top snapshot, falling back to the package name. -/
def resolvedProcessName (topOutput pkg : Str) : Str :=
  (getActualProcessNameFromTop topOutput pkg).getD pkg

/-- The `batch_commands_phase2` list built by
`get_multiple_app_performance`: per package, a meminfo command on the
resolved process name, and gfxinfo/batterystats commands on the package
name. -/
def buildPhase2Commands (topOutput : Str) (pkgs : List Str) :
    List (Str × Str) :=
  pkgs.foldr
    (fun pkg acc =>
      ("meminfo_".data ++ pkg,
        "shell dumpsys meminfo ".data ++ resolvedProcessName topOutput pkg) ::
      ("gfxinfo_".data ++ pkg,
        "shell dumpsys gfxinfo ".data ++ pkg ++ " framestats".data) ::
      ("batterystats_".data ++ pkg,
        "shell dumpsys batterystats ".data ++ pkg) :: acc)
    []

/-- Synthetic top snapshot for C3: package `com.a` runs as OS process
`com.a.service` (12 fields, last one the process name). -/
def topDemoOutput : Str :=
  "12345 u0_a101 10 -10 1.2G 128M 64M S 25.0 3.1 12:34.56 com.a.service".data

/-! ## Network parsing (`ADBCollector._parse_network_data`,
`_get_system_network_stats`, `_get_network_via_traffic_stats_optimized`)

`_parse_network_data` parses a `/proc/net/dev` snapshot and keeps the
previous totals in `self._last_system_network` to derive rates; the
record carries the rate fields as `Option` because the code only sets
them on some paths. -/

/-- The `self._last_system_network` snapshot: `time`, `rx`, `tx` (KB). -/
structure LastNet where
  time : ℚ
  rx : ℚ
  tx : ℚ
deriving DecidableEq

/-- The normalized network record produced by `_parse_network_data`. -/
structure NetworkRecord where
  network_rx_total : ℚ
  network_tx_total : ℚ
  network : Option ℚ
  network_rx : Option ℚ
  network_tx : Option ℚ
deriving DecidableEq

/-- `ADBCollector._get_default_network_data`. -/
def defaultNetworkData : NetworkRecord := ⟨0, 0, some 0, some 0, some 0⟩

/-- Parse one `/proc/net/dev` data line: needs a `:`, a non-loopback
interface, at least 9 stat fields, and integer rx (`stats[0]`) and tx
(`stats[8]`) byte counters; any `ValueError` skips the line. -/
def parseNetDevLine (line : Str) : Option (ℤ × ℤ) :=
  match splitOnChar ':' line with
  | iface :: statsSeg :: _ =>
    if pyStrip iface = "lo".data then none
    else
      let stats := pyWords statsSeg
      if 9 ≤ stats.length then
        match pyInt (stats.getD 0 []), pyInt (stats.getD 8 []) with
        | some rx, some tx => some (rx, tx)
        | _, _ => none
      else none
  | _ => none

/-- Sum the rx/tx byte counters over all parsed data lines. -/
def netDevTotals (dataLines : List Str) : ℤ × ℤ :=
  dataLines.foldl
    (fun acc line =>
      match parseNetDevLine line with
      | some (rx, tx) => (acc.1 + rx, acc.2 + tx)
      | none => acc)
    (0, 0)

/-- The data lines of a snapshot: everything after the two header
lines of `text.strip().split('\n')`. -/
def netDevDataLines (text : Str) : List Str :=
  (splitOnChar '\n' (pyStrip text)).drop 2

/-- `rx_kb = total_rx / 1024` for a snapshot text. -/
def rxKB (text : Str) : ℚ := ((netDevTotals (netDevDataLines text)).1 : ℚ) / 1024

/-- `tx_kb = total_tx / 1024` for a snapshot text. -/
def txKB (text : Str) : ℚ := ((netDevTotals (netDevDataLines text)).2 : ℚ) / 1024

/-- `ADBCollector._parse_network_data(network_output)` at clock `now`,
with explicit `self._last_system_network` state passing.  Empty or
too-short output returns the default record and leaves the state
untouched; otherwise totals are computed, rates are derived from the
previous snapshot when one exists and time advanced (clamped at zero),
set to `0.0` defaults on the very first parse, and left absent when the
clock did not advance; the state is then overwritten. -/
def parseNetworkData (st : Option LastNet) (text : Str) (now : ℚ) :
    NetworkRecord × Option LastNet :=
  if pyStrip text = [] then (defaultNetworkData, st)
  else if (splitOnChar '\n' (pyStrip text)).length < 3 then (defaultNetworkData, st)
  else
    let rx_kb := rxKB text
    let tx_kb := txKB text
    match st with
    | some prev =>
      let dt := now - prev.time
      if 0 < dt then
        let rx_speed := (rx_kb - prev.rx) / dt
        let tx_speed := (tx_kb - prev.tx) / dt
        (⟨round2 rx_kb, round2 tx_kb,
          some (round2 (max 0 (rx_speed + tx_speed))),
          some (round2 (max 0 rx_speed)),
          some (round2 (max 0 tx_speed))⟩,
         some ⟨now, rx_kb, tx_kb⟩)
      else
        (⟨round2 rx_kb, round2 tx_kb, none, none, none⟩,
         some ⟨now, rx_kb, tx_kb⟩)
    | none =>
      (⟨round2 rx_kb, round2 tx_kb, some 0, some 0, some 0⟩,
       some ⟨now, rx_kb, tx_kb⟩)

/-- Rate fields of `ADBCollector._get_system_network_stats`: they are
set only when a previous snapshot exists and time advanced, and are
clamped at zero before rounding. -/
def systemNetworkRates (prev : Option LastNet) (rx_kb tx_kb now : ℚ) :
    Option (ℚ × ℚ) :=
  match prev with
  | some p =>
    if 0 < now - p.time then
      some (round2 (max 0 ((rx_kb - p.rx) / (now - p.time))),
            round2 (max 0 ((tx_kb - p.tx) / (now - p.time))))
    else none
  | none => none

/-- Rate computation of
`ADBCollector._get_network_via_traffic_stats_optimized`: with a previous
per-package entry `(rx_kb, tx_kb, timestamp)` and an advanced clock the
rates are clamped at zero, otherwise they are zero. -/
def trafficStatsRates (last : Option (ℚ × ℚ × ℚ)) (rx_kb tx_kb now : ℚ) :
    ℚ × ℚ :=
  match last with
  | some (lrx, ltx, lt) =>
    if 0 < now - lt then
      (max 0 ((rx_kb - lrx) / (now - lt)), max 0 ((tx_kb - ltx) / (now - lt)))
    else (0, 0)
  | none => (0, 0)

/-- Demo `/proc/net/dev` snapshot for C6: two header lines and one
interface line with rx counter 1048576 bytes (1024 KB) and tx counter
2048 bytes (2 KB). -/
def netDemoText : Str := "h1\nh2\nX: 1048576 1 2 3 4 5 6 7 2048".data

/-! ## Meminfo parsing (`ADBCollector._parse_app_memory_info`)

The parser runs `re.search(key + r'\s+(\d+)')`-style patterns over the
raw dumpsys output; it reads no instance state. -/

/-- Match `\s+(\d+)` at the start of `rest`: at least one whitespace
character, then a maximal nonempty digit run, whose value is captured. -/
def matchAfterKey (rest : Str) : Option ℕ :=
  let ws := rest.takeWhile isPySpace
  if ws = [] then none
  else
    let digits := (rest.drop ws.length).takeWhile Char.isDigit
    if digits = [] then none else digitsToNat digits

/-- `re.search(key + r'\s+(\d+)', s)`: scan left to right for the first
position where `key` is followed by whitespace and a digit run; return
the captured value. -/
def searchKeyNum (key : Str) : Str → Option ℕ
  | [] => none
  | c :: rest =>
    if beginsWith key (c :: rest) then
      match matchAfterKey ((c :: rest).drop key.length) with
      | some n => some n
      | none => searchKeyNum key rest
    else searchKeyNum key rest

/-- The normalized memory record of `_parse_app_memory_info`
(PSS / Java heap / native heap, in MB, rounded to two decimals). -/
structure MemoryRecord where
  memory_pss : Option ℚ
  memory_java : Option ℚ
  memory_native : Option ℚ
deriving DecidableEq

/-- `ADBCollector._parse_app_memory_info(result)`: pure function of the
raw meminfo text. -/
def parseAppMemoryInfo (result : Str) : MemoryRecord :=
  ⟨(searchKeyNum "TOTAL".data result).map (fun n => round2 ((n : ℚ) / 1024)),
   (searchKeyNum "Java Heap:".data result).map (fun n => round2 ((n : ℚ) / 1024)),
   (searchKeyNum "Native Heap:".data result).map (fun n => round2 ((n : ℚ) / 1024))⟩

/-! ## Buffered writer
(`src/android_metrics/database/data_storage.py`,
`OptimizedDataStorageService._add_to_batch` / `_flush_buffer`)

Rows are abstracted to identifiers; `delivered` logs one entry per
`_flush_buffer` call that forwarded data, holding the whole buffer that
was flushed in order. -/

/-- The record types keyed in `self.batch_buffers`. -/
inductive StorageTable
  | system_performance
  | app_performance
  | network_stats
  | fps_data
  | power_consumption
deriving DecidableEq

/-- `self.batch_size_limits`. -/
def batchSizeLimit : StorageTable → ℕ
  | .system_performance => 50
  | .app_performance => 100
  | .network_stats => 75
  | .fps_data => 75
  | .power_consumption => 75

/-- `self.flush_intervals` (seconds). -/
def flushInterval : StorageTable → ℚ
  | .system_performance => 5
  | .app_performance => 3
  | .network_stats => 4
  | .fps_data => 4
  | .power_consumption => 6

/-- The `deque(maxlen=...)` capacities of `self.batch_buffers`. -/
def bufferMaxLen : StorageTable → ℕ
  | .system_performance => 200
  | .app_performance => 500
  | .network_stats => 300
  | .fps_data => 300
  | .power_consumption => 300

/-- `deque(maxlen=m).append(x)`: append, dropping from the left when
the capacity is reached. -/
def dequeAppend (maxLen : ℕ) (l : List ℕ) (x : ℕ) : List ℕ :=
  if l.length < maxLen then l ++ [x]
  else (l.drop (l.length + 1 - maxLen)) ++ [x]

/-- State of the storage service: per-table buffers, per-table last
flush times, and the log of flushed batches. -/
structure StorageState where
  buffers : StorageTable → List ℕ
  lastFlush : StorageTable → ℚ
  delivered : List (StorageTable × List ℕ)

/-- `OptimizedDataStorageService.__init__` at construction time `t0`. -/
def initStorage (t0 : ℚ) : StorageState :=
  ⟨fun _ => [], fun _ => t0, []⟩

/-- Intermediate state while filling table `t`: only its buffer is
nonempty, no flush has happened, all timers stand at `t0`. -/
def midState (t : StorageTable) (t0 : ℚ) (buf : List ℕ) : StorageState :=
  ⟨fun u => if u = t then buf else [], fun _ => t0, []⟩

/-- `OptimizedDataStorageService._flush_buffer(table_name)` at clock
`now`: an empty buffer is left alone; otherwise the whole buffer is
forwarded in order, the buffer cleared, and the timer reset. -/
def flushBuffer (st : StorageState) (t : StorageTable) (now : ℚ) :
    StorageState :=
  if st.buffers t = [] then st
  else
    { buffers := fun u => if u = t then [] else st.buffers u,
      lastFlush := fun u => if u = t then now else st.lastFlush u,
      delivered := st.delivered ++ [(t, st.buffers t)] }

/-- `OptimizedDataStorageService._add_to_batch(table_name, data)` at
clock `now`: append to the buffer, then flush when the buffer reached
its size threshold or the per-type flush interval elapsed since the
last flush. -/
def addToBatch (st : StorageState) (t : StorageTable) (row : ℕ) (now : ℚ) :
    StorageState :=
  let st1 : StorageState :=
    { st with
      buffers := fun u =>
        if u = t then dequeAppend (bufferMaxLen t) (st.buffers t) row
        else st.buffers u }
  if batchSizeLimit t ≤ (st1.buffers t).length ∨
      flushInterval t ≤ now - st.lastFlush t then
    flushBuffer st1 t now
  else st1

/-- A sequence of enqueues into one table at a common clock `now`. -/
def addSeq (st : StorageState) (t : StorageTable) (rows : List ℕ) (now : ℚ) :
    StorageState :=
  rows.foldl (fun s r => addToBatch s t r now) st

/-! ## Single-command runner (`ADBCollector._run_adb_command`)

`outcomes i` is what `subprocess.run` does on attempt `i`: success with
some output, `TimeoutExpired`, `CalledProcessError` (non-zero exit,
e.g. a missing device), or any other exception.  The result records the
returned value, the number of attempts made, which attempt indices were
logged, and how many `time.sleep(0.1)` backoffs ran. -/

inductive AdbAttempt
  | ok (out : Str)
  | timeout
  | processError
  | otherError
deriving DecidableEq

/-- Did the attempt succeed? -/
def AdbAttempt.isOk : AdbAttempt → Bool
  | .ok _ => true
  | _ => false

structure RunResult where
  output : Option Str
  attempts : ℕ
  logged : List ℕ
  sleeps : ℕ
deriving DecidableEq

/-- Loop of `_run_adb_command`: `for attempt in range(retry_count)`,
returning on the first success; on failure, log only when this was the
final attempt (`attempt == retry_count - 1`) and `log_errors` is on,
and sleep `0.1`s before the next attempt. -/
def runAdbAux (logErrors : Bool) (outcomes : ℕ → AdbAttempt)
    (retryCount : ℕ) : ℕ → ℕ → List ℕ → ℕ → RunResult
  | i, 0, logged, sleeps => ⟨none, i, logged, sleeps⟩
  | i, fuel + 1, logged, sleeps =>
    match outcomes i with
    | .ok out => ⟨some out, i + 1, logged, sleeps⟩
    | _ =>
      let logged' :=
        if logErrors = true ∧ i = retryCount - 1 then logged ++ [i] else logged
      let sleeps' := if i < retryCount - 1 then sleeps + 1 else sleeps
      runAdbAux logErrors outcomes retryCount (i + 1) fuel logged' sleeps'

/-- `ADBCollector._run_adb_command` (cache disabled), as a function of
the per-attempt `subprocess` outcomes. -/
def runAdbCommand (retryCount : ℕ) (logErrors : Bool)
    (outcomes : ℕ → AdbAttempt) : RunResult :=
  runAdbAux logErrors outcomes retryCount 0 retryCount [] 0

/-- Demo put-sequences for the C7 witness (capacities `N1 = 1`,
`N2 = 2`): distinct keys with strictly increasing timestamps. -/
def cacheDemoItems2 : List (Str × ℤ × ℚ) := [(['a'], 1, 0), (['b'], 2, 1)]

/-- Three distinct keys, enough to reach `N1 + N2` for `N1 = 1`,
`N2 = 2`. -/
def cacheDemoItems3 : List (Str × ℤ × ℚ) :=
  [(['a'], 1, 0), (['b'], 2, 1), (['c'], 3, 2)]

/-! ## END OF DEFINITIONS -/

/-! ## Rounding lemmas -/

theorem round2_nonneg {q : ℚ} (h : 0 ≤ q) : 0 ≤ round2 q := by
  have hr : (0 : ℤ) ≤ round (q * 100) := by
    rw [round_eq]
    exact Int.le_floor.mpr (by push_cast; linarith)
  unfold round2
  exact div_nonneg (by exact_mod_cast hr) (by norm_num)

theorem round_mono_rat {x y : ℚ} (h : x ≤ y) : round x ≤ round y := by
  rw [round_eq, round_eq]
  exact Int.floor_le_floor (by linarith)

theorem round2_eq (x : ℚ) (z : ℤ) (h1 : (z : ℚ) ≤ x * 100 + 1 / 2)
    (h2 : x * 100 + 1 / 2 < z + 1) : round2 x = (z : ℚ) / 100 := by
  have hz : round (x * 100) = z := by
    rw [round_eq]
    exact Int.floor_eq_iff.mpr ⟨h1, by linarith⟩
  unfold round2
  rw [hz]

theorem round2_bounds {x : ℚ} (h1 : 1 / 10 ≤ x) (h2 : x ≤ 150) :
    1 / 10 ≤ round2 x ∧ round2 x ≤ 150 := by
  have hlo : (10 : ℤ) ≤ round (x * 100) := by
    have h10 : round ((10 : ℤ) : ℚ) = 10 := round_intCast 10
    have := round_mono_rat (x := ((10 : ℤ) : ℚ)) (y := x * 100)
      (by push_cast; linarith)
    rw [h10] at this
    exact this
  have hhi : round (x * 100) ≤ (15000 : ℤ) := by
    have h15 : round ((15000 : ℤ) : ℚ) = 15000 := round_intCast 15000
    have := round_mono_rat (x := x * 100) (y := ((15000 : ℤ) : ℚ))
      (by push_cast; linarith)
    rw [h15] at this
    exact this
  constructor
  · unfold round2
    have : ((10 : ℤ) : ℚ) ≤ (round (x * 100) : ℚ) := by exact_mod_cast hlo
    push_cast at this
    linarith
  · unfold round2
    have : ((round (x * 100) : ℤ) : ℚ) ≤ ((15000 : ℤ) : ℚ) := by
      exact_mod_cast hhi
    push_cast at this
    linarith

/-! ## General association-list lemmas -/

theorem lookup_upsert_self {α : Type} (l : List (Str × α)) (k : Str) (v : α) :
    lookupKey (upsert l k v) k = some v := by
  induction l with
  | nil => simp [upsert, lookupKey]
  | cons p rest ih =>
    by_cases h : p.1 = k
    · simp [upsert, lookupKey, h]
    · simp [upsert, lookupKey, h, ih]

theorem lookup_eraseKey_self {α : Type} (l : List (Str × α)) (k : Str) :
    lookupKey (eraseKey l k) k = none := by
  induction l with
  | nil => simp [eraseKey, lookupKey]
  | cons p rest ih =>
    by_cases h : p.1 = k
    · simpa [eraseKey, h] using ih
    · simpa [eraseKey, lookupKey, h] using ih

theorem lookup_eq_none_of_not_mem_keys {α : Type} (l : List (Str × α)) (k : Str)
    (h : k ∉ l.map Prod.fst) : lookupKey l k = none := by
  induction l with
  | nil => simp [lookupKey]
  | cons p rest ih =>
    simp only [List.map_cons, List.mem_cons] at h
    push_neg at h
    have hpk : ¬ p.1 = k := fun hh => h.1 hh.symm
    simp [lookupKey, hpk, ih h.2]

theorem upsert_eq_append_of_not_mem_keys {α : Type} (l : List (Str × α)) (k : Str)
    (v : α) (h : k ∉ l.map Prod.fst) : upsert l k v = l ++ [(k, v)] := by
  induction l with
  | nil => simp [upsert]
  | cons p rest ih =>
    simp only [List.map_cons, List.mem_cons] at h
    push_neg at h
    have hpk : ¬ p.1 = k := fun hh => h.1 hh.symm
    simp [upsert, hpk, ih h.2]

/-- A `get` of a key held in neither tier misses and leaves the cache
unchanged. -/
theorem get_miss_of_absent (c : EnhancedCache) (k : Str) (ttl now : ℚ)
    (h1 : lookupKey c.l1 k = none) (h2 : lookupKey c.l2 k = none) :
    c.get k ttl now = (GetOutcome.miss, c) := by
  simp [EnhancedCache.get, EnhancedCache.getL2, h1, h2]

/-! ## C1: tiered-cache promotion -/

/-- C1 counterexample: the claim as stated is false.  With `ttl = 30`
(`T1 = 30`, `T2 = 60`), `put(k, 7)` at time `0` followed by `get(k)` at
time `40` — a delay `d = 40` with `T1 ≤ d < T2` and no intervening
operations on `k` — returns a miss, not a tier-2 hit with value `7`:
`put` stores into tier-1 only, and `get` deletes a tier-1 entry aged
past `T1` instead of finding it in tier-2. -/
theorem C1_counterexample :
    ((EnhancedCache.init.put ['k'] 7 0).get ['k'] 30 40).1 = GetOutcome.miss ∧
    (30 : ℚ) ≤ 40 - 0 ∧ (40 : ℚ) - 0 < 30 * 2 := by
  refine ⟨?_, by norm_num, by norm_num⟩
  norm_num [EnhancedCache.init, EnhancedCache.put, EnhancedCache.get,
    EnhancedCache.getL2, lookupKey, upsert, eraseKey, oldestEntry]

/-- C1 (amended): promotion applies to entries residing in tier-2.  If
key `k` is absent from tier-1 and sits in tier-2 with age `< T2 = 2*ttl`,
then `get(k)` returns its value as a tier-2 hit and moves the entry —
original timestamp kept — into tier-1, and a second `get(k)` while the
age is still `< T1 = ttl` is a tier-1 hit.  A key that was merely `put`
(so resides in tier-1) and aged into `[T1, T2)` is deleted by `get` and
misses; it is never found in tier-2. -/
theorem C1_tiered_cache_promotion :
    (∀ (c : EnhancedCache) (k : Str) (e : CacheEntry) (ttl now now' : ℚ),
      lookupKey c.l1 k = none → lookupKey c.l2 k = some e →
      now - e.time < ttl * 2 → now' - e.time < ttl →
      (c.get k ttl now).1 = GetOutcome.l2Hit e.data ∧
      lookupKey (c.get k ttl now).2.l1 k = some e ∧
      ((c.get k ttl now).2.get k ttl now').1 = GetOutcome.l1Hit e.data)
    ∧
    (∀ (k : Str) (v : ℤ) (t ttl now : ℚ), ttl ≤ now - t →
      ((EnhancedCache.init.put k v t).get k ttl now).1 = GetOutcome.miss) := by
  constructor
  · intro c k e ttl now now' h1 h2 hage hage'
    have hget : c.get k ttl now =
        (GetOutcome.l2Hit e.data,
          { c with l1 := upsert c.l1 k e, l2 := eraseKey c.l2 k }) := by
      simp [EnhancedCache.get, EnhancedCache.getL2, h1, h2, hage]
    refine ⟨by rw [hget], ?_, ?_⟩
    · rw [hget]
      exact lookup_upsert_self _ _ _
    · rw [hget]
      simp [EnhancedCache.get, lookup_upsert_self, hage']
  · intro k v t ttl now h
    have hput : EnhancedCache.init.put k v t =
        ⟨[(k, ⟨v, t⟩)], [], 100, 500⟩ := by
      simp [EnhancedCache.init, EnhancedCache.put, upsert]
    rw [hput]
    simp [EnhancedCache.get, EnhancedCache.getL2, lookupKey, eraseKey,
      not_lt.mpr h]

/-- C1 witness: the amended theorem applied at a concrete input — an
entry for key `k` residing in tier-2 with stamp `0`, `ttl = 30`, first
`get` at time `10`, second at time `11`; and the tier-1 aging branch at
`put` time `0`, `get` time `40`. -/
theorem C1_witness :
    (lookupKey (EnhancedCache.mk [] [(['k'], ⟨5, 0⟩)] 100 500).l1 ['k'] = none ∧
      lookupKey (EnhancedCache.mk [] [(['k'], ⟨5, 0⟩)] 100 500).l2 ['k'] =
        some ⟨5, 0⟩ ∧
      (10 : ℚ) - 0 < 30 * 2 ∧ (11 : ℚ) - 0 < 30 ∧ (30 : ℚ) ≤ 40 - 0) ∧
    ((EnhancedCache.mk [] [(['k'], ⟨5, 0⟩)] 100 500).get ['k'] 30 10).1 =
      GetOutcome.l2Hit 5 ∧
    ((EnhancedCache.init.put ['q'] 9 0).get ['q'] 30 40).1 = GetOutcome.miss := by
  refine ⟨⟨by norm_num [lookupKey], by norm_num [lookupKey], by norm_num,
    by norm_num, by norm_num⟩, ?_, ?_⟩
  · exact (C1_tiered_cache_promotion.1 _ ['k'] ⟨5, 0⟩ 30 10 11
      (by norm_num [lookupKey]) (by norm_num [lookupKey]) (by norm_num)
      (by norm_num)).1
  · exact C1_tiered_cache_promotion.2 ['q'] 9 0 30 40 (by norm_num)

/-! ## C2: sampling-interval bounds -/

/-- C2 counterexample: the claim as stated is false.  Starting from the
base intervals, a single adjustment (with any hit rate, here `0.5`)
clamps the `device_info` interval from its base of `60` seconds down to
`10` seconds, which is below `0.5 × base = 30` — the code enforces the
absolute range `[1.0, 10.0]`, not `[0.5×base, 2×base]`. -/
theorem C2_counterexample :
    optimizeCollectionIntervals (1 / 2) baseCollectionIntervals
        CollectionDomain.device_info = 10 ∧
    optimizeCollectionIntervals (1 / 2) baseCollectionIntervals
        CollectionDomain.device_info <
      (1 / 2) * baseCollectionIntervals CollectionDomain.device_info := by
  constructor <;>
    norm_num [optimizeCollectionIntervals, baseCollectionIntervals, pyClamp]

/-- C2 (amended): every adjustment clamps each domain's interval into
the absolute range `[1.0, 10.0]` seconds (regardless of the previous
value or the hit rate), so after any nonempty sequence of adjustments
each current interval lies in `[1.0, 10.0]` — not within
`[0.5×base, 2×base]` of the domain's base interval. -/
theorem C2_interval_bounds :
    (∀ (intervals : CollectionDomain → ℚ) (hit_rate : ℚ) (k : CollectionDomain),
      1 ≤ optimizeCollectionIntervals hit_rate intervals k ∧
      optimizeCollectionIntervals hit_rate intervals k ≤ 10)
    ∧
    (∀ (rates : List ℚ) (intervals : CollectionDomain → ℚ) (k : CollectionDomain),
      rates ≠ [] →
      1 ≤ optimizeSeq intervals rates k ∧ optimizeSeq intervals rates k ≤ 10) := by
  have hstep : ∀ (intervals : CollectionDomain → ℚ) (hit_rate : ℚ)
      (k : CollectionDomain),
      1 ≤ optimizeCollectionIntervals hit_rate intervals k ∧
      optimizeCollectionIntervals hit_rate intervals k ≤ 10 := by
    intro intervals hit_rate k
    unfold optimizeCollectionIntervals pyClamp
    exact ⟨le_max_left _ _, max_le (by norm_num) (min_le_right _ _)⟩
  refine ⟨hstep, ?_⟩
  intro rates
  induction rates with
  | nil => intro _ _ h; exact absurd rfl h
  | cons r rs ih =>
    intro intervals k _
    cases rs with
    | nil => exact hstep _ _ _
    | cons r2 rs2 =>
      have : optimizeSeq intervals (r :: r2 :: rs2) =
          optimizeSeq (optimizeCollectionIntervals r intervals) (r2 :: rs2) := by
        simp [optimizeSeq]
      rw [this]
      exact ih _ k (by simp)

/-- C2 witness: the amended theorem applied at the base intervals with
one adjustment at hit rate `0.9` on domain `app_basic`, and with the
adjustment sequence `[0.5]` on domain `device_info`. -/
theorem C2_witness :
    (1 ≤ optimizeCollectionIntervals (9 / 10) baseCollectionIntervals
        CollectionDomain.app_basic ∧
      optimizeCollectionIntervals (9 / 10) baseCollectionIntervals
        CollectionDomain.app_basic ≤ 10) ∧
    ([(1 : ℚ) / 2] ≠ ([] : List ℚ) ∧
      1 ≤ optimizeSeq baseCollectionIntervals [1 / 2]
          CollectionDomain.device_info ∧
      optimizeSeq baseCollectionIntervals [1 / 2]
          CollectionDomain.device_info ≤ 10) := by
  refine ⟨C2_interval_bounds.1 baseCollectionIntervals (9 / 10)
    CollectionDomain.app_basic, by simp, ?_, ?_⟩
  · exact (C2_interval_bounds.2 [1 / 2] baseCollectionIntervals
      CollectionDomain.device_info (by simp)).1
  · exact (C2_interval_bounds.2 [1 / 2] baseCollectionIntervals
      CollectionDomain.device_info (by simp)).2

/-! ## C4: partial-failure tolerance of batch dispatch -/

theorem foldl_upsert_eq_append {α : Type} :
    ∀ (l acc : List (Str × α)),
      (acc.map Prod.fst ++ l.map Prod.fst).Nodup →
      l.foldl (fun d p => upsert d p.1 p.2) acc = acc ++ l := by
  intro l
  induction l with
  | nil => intro acc _; simp
  | cons p rest ih =>
    intro acc hnd
    have hnotin : p.1 ∉ acc.map Prod.fst := by
      intro hmem
      rw [List.nodup_append] at hnd
      have hmem2 : p.1 ∈ (p :: rest).map Prod.fst :=
        List.mem_map_of_mem Prod.fst (List.mem_cons_self p rest)
      exact hnd.2.2 hmem hmem2
    have hup : upsert acc p.1 p.2 = acc ++ [(p.1, p.2)] :=
      upsert_eq_append_of_not_mem_keys _ _ _ hnotin
    have hnd' : ((acc ++ [(p.1, p.2)]).map Prod.fst ++
        rest.map Prod.fst).Nodup := by
      simp only [List.map_append, List.map_cons, List.map_nil] at hnd ⊢
      simpa [List.append_assoc] using hnd
    calc (p :: rest).foldl (fun d q => upsert d q.1 q.2) acc
      = rest.foldl (fun d q => upsert d q.1 q.2) (acc ++ [(p.1, p.2)]) := by
          simp [hup]
    _ = (acc ++ [(p.1, p.2)]) ++ rest := ih _ hnd'
    _ = acc ++ p :: rest := by simp

theorem lookup_map_run {α : Type} (run : Str → α) :
    ∀ (commands : List (Str × Str)) (p : Str × Str),
      (commands.map Prod.fst).Nodup → p ∈ commands →
      lookupKey (commands.map (fun q => (q.1, run q.2))) p.1 =
        some (run p.2) := by
  intro commands
  induction commands with
  | nil => intro p _ hmem; simp at hmem
  | cons q rest ih =>
    intro p hnd hmem
    rcases List.mem_cons.mp hmem with hpq | hprest
    · subst hpq
      simp [lookupKey]
    · have hnd2 : q.1 ∉ rest.map Prod.fst ∧ (rest.map Prod.fst).Nodup := by
        rw [List.map_cons, List.nodup_cons] at hnd
        exact hnd
      have hne : ¬ q.1 = p.1 := fun he =>
        hnd2.1 (he ▸ List.mem_map.mpr ⟨p, hprest, rfl⟩)
      simp only [List.map_cons, lookupKey, hne, if_false]
      exact ih p hnd2.2 hprest

/-- C4: for every batch of commands with distinct task keys,
`execute_batch` returns exactly one entry per submitted key, in
submission order; each key's entry is exactly its own command's
outcome (`none` when that command fails, throws, or times out), so one
command's failure cannot change any sibling's entry, and the function
is total — it never raises. -/
theorem C4_batch_partial_failure :
    ∀ (commands : List (Str × Str)) (run : Str → Option Str),
      (commands.map Prod.fst).Nodup →
      executeBatch commands run = commands.map (fun q => (q.1, run q.2)) ∧
      (executeBatch commands run).length = commands.length ∧
      (executeBatch commands run).map Prod.fst = commands.map Prod.fst ∧
      (∀ p ∈ commands,
        lookupKey (executeBatch commands run) p.1 = some (run p.2)) := by
  intro commands run hnd
  have hfold : commands.foldl (fun d p => upsert d p.1 p.2) [] = commands := by
    simpa using foldl_upsert_eq_append commands [] (by simpa using hnd)
  have hmain : executeBatch commands run =
      commands.map (fun q => (q.1, run q.2)) := by
    simp [executeBatch, hfold]
  refine ⟨hmain, by simp [hmain], by simp [hmain], ?_⟩
  intro p hp
  rw [hmain]
  exact lookup_map_run run commands p hnd hp

/-- C4 witness: the theorem applied to a concrete batch of 5 commands
with 2 commands constructed to fail — the result has exactly one entry
per key, with exactly 3 present and 2 absent values. -/
theorem C4_witness :
    (batchDemoCommands.map Prod.fst).Nodup ∧
    executeBatch batchDemoCommands batchDemoRun =
      batchDemoCommands.map (fun q => (q.1, batchDemoRun q.2)) ∧
    ((executeBatch batchDemoCommands batchDemoRun).filter
        (fun p => p.2.isSome)).length = 3 ∧
    ((executeBatch batchDemoCommands batchDemoRun).filter
        (fun p => p.2.isNone)).length = 2 := by
  have h := C4_batch_partial_failure batchDemoCommands batchDemoRun (by decide)
  refine ⟨by decide, h.1, ?_, ?_⟩
  · rw [h.1]; decide
  · rw [h.1]; decide

/-! ## C5: power-estimator clamping and omission -/

/-- C5: whenever the heuristic power estimator returns a value, that
value lies within `[0.1, 150]` mAh — for every input, including 100%
CPU and arbitrarily large memory; and when fewer than two contributing
components are available (no positive CPU reading, no PSS figure, no
network activity — only the always-present base component) it returns
no value at all, never a fabricated zero. -/
theorem C5_power_estimator :
    (∀ (inp : PowerInputs) (v : ℚ),
      estimatePowerConsumption inp = some v → 1 / 10 ≤ v ∧ v ≤ 150) ∧
    (∀ inp : PowerInputs,
      (inp.cpu_usage = none ∨ ∃ c, inp.cpu_usage = some c ∧ c ≤ 0) →
      inp.memory_pss = none → inp.networkActive = false →
      estimatePowerConsumption inp = none) := by
  constructor
  · intro inp v h
    unfold estimatePowerConsumption at h
    split at h
    · have hv : round2 (pyClamp (1 / 10) 150
          (powerTotalRaw inp * foregroundMultiplier inp)) = v :=
        Option.some.inj h
      have hlo : 1 / 10 ≤ pyClamp (1 / 10) 150
          (powerTotalRaw inp * foregroundMultiplier inp) := le_max_left _ _
      have hhi : pyClamp (1 / 10) 150
          (powerTotalRaw inp * foregroundMultiplier inp) ≤ 150 :=
        max_le (by norm_num) (min_le_right _ _)
      rw [← hv]
      exact round2_bounds hlo hhi
    · exact absurd h (by simp)
  · intro inp hcpu hmem hnet
    have hc : powerComponentsCount inp = 1 := by
      unfold powerComponentsCount
      rcases hcpu with h | ⟨c, hceq, hle⟩
      · rw [h, hmem, hnet]
        simp
      · rw [hceq, hmem, hnet]
        simp [not_lt.mpr hle]
    unfold estimatePowerConsumption
    rw [hc]
    norm_num

/-- C5 witness: the theorem applied to the extreme input (100% CPU,
PSS of 10^9 KB, foreground, network active), whose estimate computes to
`149.4` mAh and is duly inside `[0.1, 150]`; and to the sparse input
(base component only), which is omitted. -/
theorem C5_witness :
    estimatePowerConsumption powerDemoExtreme = some (747 / 5) ∧
    (1 / 10 ≤ (747 / 5 : ℚ) ∧ (747 / 5 : ℚ) ≤ 150) ∧
    estimatePowerConsumption powerDemoSparse = none := by
  have hraw : powerTotalRaw powerDemoExtreme * foregroundMultiplier powerDemoExtreme
      = 747 / 5 := by
    norm_num [powerTotalRaw, foregroundMultiplier, powerDemoExtreme, min_def]
  have hcomp : estimatePowerConsumption powerDemoExtreme = some (747 / 5) := by
    unfold estimatePowerConsumption
    rw [if_pos (by norm_num [powerComponentsCount, powerDemoExtreme])]
    rw [hraw]
    have hclamp : pyClamp (1 / 10) 150 (747 / 5 : ℚ) = 747 / 5 := by
      norm_num [pyClamp, min_def, max_def]
    rw [hclamp, round2_eq (747 / 5) 14940 (by norm_num) (by norm_num)]
    norm_num
  exact ⟨hcomp, C5_power_estimator.1 powerDemoExtreme _ hcomp,
    C5_power_estimator.2 powerDemoSparse (Or.inl rfl) rfl rfl⟩

/-! ## C3: two-phase per-app collection -/

/-- C3 counterexample: the claim as stated is false.  With a synthetic
top snapshot mapping package `com.a` to process `com.a.service`, the
resolution succeeds, yet the phase-2 gfxinfo and batterystats commands
for `com.a` still target `com.a`, not `com.a.service` — only the
meminfo command targets the resolved process name. -/
theorem C3_counterexample :
    getActualProcessNameFromTop topDemoOutput "com.a".data =
      some "com.a.service".data ∧
    ("gfxinfo_com.a".data, "shell dumpsys gfxinfo com.a framestats".data) ∈
      buildPhase2Commands topDemoOutput ["com.a".data, "com.b".data] ∧
    ("gfxinfo_com.a".data,
        "shell dumpsys gfxinfo com.a.service framestats".data) ∉
      buildPhase2Commands topDemoOutput ["com.a".data, "com.b".data] ∧
    ("batterystats_com.a".data, "shell dumpsys batterystats com.a".data) ∈
      buildPhase2Commands topDemoOutput ["com.a".data, "com.b".data] ∧
    ("batterystats_com.a".data,
        "shell dumpsys batterystats com.a.service".data) ∉
      buildPhase2Commands topDemoOutput ["com.a".data, "com.b".data] := by
  refine ⟨by decide, by decide, by decide, by decide, by decide⟩

/-- C3 (amended): in a multi-app collection call, for every package in
the batch the phase-2 meminfo command targets the process name resolved
from the shared top snapshot (falling back to the package name), while
the phase-2 gfxinfo and batterystats commands target the package name
itself. -/
theorem C3_two_phase_commands :
    ∀ (top : Str) (pkgs : List Str) (pkg : Str), pkg ∈ pkgs →
      ("meminfo_".data ++ pkg,
          "shell dumpsys meminfo ".data ++ resolvedProcessName top pkg) ∈
        buildPhase2Commands top pkgs ∧
      ("gfxinfo_".data ++ pkg,
          "shell dumpsys gfxinfo ".data ++ pkg ++ " framestats".data) ∈
        buildPhase2Commands top pkgs ∧
      ("batterystats_".data ++ pkg,
          "shell dumpsys batterystats ".data ++ pkg) ∈
        buildPhase2Commands top pkgs := by
  intro top pkgs
  induction pkgs with
  | nil => intro pkg h; simp at h
  | cons q rest ih =>
    intro pkg h
    rcases List.mem_cons.mp h with hq | hrest
    · subst hq
      refine ⟨?_, ?_, ?_⟩ <;> simp [buildPhase2Commands]
    · have := ih pkg hrest
      refine ⟨?_, ?_, ?_⟩ <;>
        simp [buildPhase2Commands] <;>
        simp [buildPhase2Commands] at this <;>
        tauto

/-- C3 witness: the amended theorem applied to the synthetic snapshot
and package list `["com.a", "com.b"]` at package `com.a`, whose
resolved process name is `com.a.service`. -/
theorem C3_witness :
    ("com.a".data ∈ ["com.a".data, "com.b".data] ∧
      resolvedProcessName topDemoOutput "com.a".data = "com.a.service".data) ∧
    ("meminfo_".data ++ "com.a".data,
        "shell dumpsys meminfo ".data ++
          resolvedProcessName topDemoOutput "com.a".data) ∈
      buildPhase2Commands topDemoOutput ["com.a".data, "com.b".data] ∧
    ("gfxinfo_".data ++ "com.a".data,
        "shell dumpsys gfxinfo ".data ++ "com.a".data ++ " framestats".data) ∈
      buildPhase2Commands topDemoOutput ["com.a".data, "com.b".data] ∧
    ("batterystats_".data ++ "com.a".data,
        "shell dumpsys batterystats ".data ++ "com.a".data) ∈
      buildPhase2Commands topDemoOutput ["com.a".data, "com.b".data] := by
  exact ⟨⟨by decide, by decide⟩,
    C3_two_phase_commands topDemoOutput ["com.a".data, "com.b".data]
      "com.a".data (by decide)⟩

/-! ## Network-parser lemmas -/

theorem round2_zero : round2 0 = 0 := by
  simp [round2, round_zero]

/-- Once past the guards, `_parse_network_data` always overwrites the
previous-snapshot state with the totals of the parsed text. -/
theorem parseNetworkData_state (st : Option LastNet) (text : Str) (now : ℚ)
    (hg1 : ¬ pyStrip text = [])
    (hg2 : ¬ (splitOnChar '\n' (pyStrip text)).length < 3) :
    (parseNetworkData st text now).2 = some ⟨now, rxKB text, txKB text⟩ := by
  unfold parseNetworkData
  rw [if_neg hg1, if_neg hg2]
  cases st with
  | none => rfl
  | some prev =>
    by_cases hdt : 0 < now - prev.time
    · simp only [if_pos hdt]
    · simp only [if_neg hdt]

/-- Once past the guards, with a previous snapshot and an advanced
clock, `_parse_network_data` produces exactly the clamped-rate record. -/
theorem parseNetworkData_rates (prev : LastNet) (text : Str) (now : ℚ)
    (hg1 : ¬ pyStrip text = [])
    (hg2 : ¬ (splitOnChar '\n' (pyStrip text)).length < 3)
    (hdt : 0 < now - prev.time) :
    parseNetworkData (some prev) text now =
      (⟨round2 (rxKB text), round2 (txKB text),
        some (round2 (max 0 ((rxKB text - prev.rx) / (now - prev.time) +
          (txKB text - prev.tx) / (now - prev.time)))),
        some (round2 (max 0 ((rxKB text - prev.rx) / (now - prev.time)))),
        some (round2 (max 0 ((txKB text - prev.tx) / (now - prev.time))))⟩,
       some ⟨now, rxKB text, txKB text⟩) := by
  unfold parseNetworkData
  rw [if_neg hg1, if_neg hg2]
  simp only [if_pos hdt]

/-- Once past the guards, the totals fields depend only on the text. -/
theorem parseNetworkData_totals (st : Option LastNet) (text : Str) (now : ℚ)
    (hg1 : ¬ pyStrip text = [])
    (hg2 : ¬ (splitOnChar '\n' (pyStrip text)).length < 3) :
    (parseNetworkData st text now).1.network_rx_total = round2 (rxKB text) ∧
    (parseNetworkData st text now).1.network_tx_total = round2 (txKB text) := by
  unfold parseNetworkData
  rw [if_neg hg1, if_neg hg2]
  cases st with
  | none => exact ⟨rfl, rfl⟩
  | some prev =>
    by_cases hdt : 0 < now - prev.time
    · simp [hdt]
    · simp [hdt]

/-! ## C6: idempotence of parsing -/

/-- C6 counterexample: the claim as stated is false for the network
parser.  With the previous-snapshot state holding zero totals, parsing
the same `/proc/net/dev` text (totals 1024 KB rx, 2 KB tx) at time 1
reports `network_rx = 1024`, and parsing the very same text again at
time 2 reports `network_rx = 0`: the parser mutates
`self._last_system_network`, so the two records differ. -/
theorem C6_counterexample :
    (parseNetworkData (some ⟨0, 0, 0⟩) netDemoText 1).1.network_rx =
      some 1024 ∧
    (parseNetworkData (parseNetworkData (some ⟨0, 0, 0⟩) netDemoText 1).2
        netDemoText 2).1.network_rx = some 0 ∧
    (parseNetworkData (some ⟨0, 0, 0⟩) netDemoText 1).1 ≠
      (parseNetworkData (parseNetworkData (some ⟨0, 0, 0⟩) netDemoText 1).2
        netDemoText 2).1 := by
  have hg1 : ¬ pyStrip netDemoText = [] := by decide
  have hg2 : ¬ (splitOnChar '\n' (pyStrip netDemoText)).length < 3 := by decide
  have htot : netDevTotals (netDevDataLines netDemoText) = (1048576, 2048) := by
    decide
  have hrx : rxKB netDemoText = 1024 := by
    unfold rxKB
    rw [htot]
    norm_num
  have htx : txKB netDemoText = 2 := by
    unfold txKB
    rw [htot]
    norm_num
  have hr1024 : round2 (1024 : ℚ) = 1024 := by
    rw [round2_eq 1024 102400 (by norm_num) (by norm_num)]
    norm_num
  have h1 := parseNetworkData_rates ⟨0, 0, 0⟩ netDemoText 1 hg1 hg2 (by norm_num)
  rw [hrx, htx] at h1
  have hfst : (parseNetworkData (some ⟨0, 0, 0⟩) netDemoText 1).1.network_rx =
      some 1024 := by
    rw [h1]
    show some (round2 (max 0 ((1024 - 0) / (1 - 0)))) = some 1024
    norm_num [max_def, hr1024]
  have hsnd : (parseNetworkData (parseNetworkData (some ⟨0, 0, 0⟩)
      netDemoText 1).2 netDemoText 2).1.network_rx = some 0 := by
    have hst : (parseNetworkData (some ⟨0, 0, 0⟩) netDemoText 1).2 =
        some ⟨1, rxKB netDemoText, txKB netDemoText⟩ :=
      parseNetworkData_state _ _ _ hg1 hg2
    rw [hst]
    have h2 := parseNetworkData_rates ⟨1, rxKB netDemoText, txKB netDemoText⟩
      netDemoText 2 hg1 hg2 (by norm_num)
    rw [h2]
    show some (round2 (max 0 ((rxKB netDemoText - rxKB netDemoText) / (2 - 1))))
        = some 0
    simp [round2_zero]
  refine ⟨hfst, hsnd, fun heq => ?_⟩
  have := congrArg NetworkRecord.network_rx heq
  rw [hfst, hsnd] at this
  have h10 : (1024 : ℚ) = 0 := Option.some.inj this
  norm_num at h10

/-- C6 (amended): the meminfo parser is a pure function of its text, so
parsing the same meminfo output twice yields identical memory records;
but the network parser keeps the mutable previous-snapshot state
`_last_system_network`, so parsing the same `/proc/net/dev` text twice
only reproduces the totals fields — the second parse reports zero
rates (`network`, `network_rx`, `network_tx` all `0.0`), which differ
from the first parse whenever its rates were nonzero or absent. -/
theorem C6_parser_statefulness :
    (∀ (st : Option LastNet) (text : Str) (now now' : ℚ),
      ¬ pyStrip text = [] →
      ¬ (splitOnChar '\n' (pyStrip text)).length < 3 →
      now < now' →
      ((parseNetworkData (parseNetworkData st text now).2 text now').1.network_rx_total
         = (parseNetworkData st text now).1.network_rx_total ∧
       (parseNetworkData (parseNetworkData st text now).2 text now').1.network_tx_total
         = (parseNetworkData st text now).1.network_tx_total) ∧
      ((parseNetworkData (parseNetworkData st text now).2 text now').1.network_rx
         = some 0 ∧
       (parseNetworkData (parseNetworkData st text now).2 text now').1.network_tx
         = some 0 ∧
       (parseNetworkData (parseNetworkData st text now).2 text now').1.network
         = some 0)) ∧
    (∀ t : Str, parseAppMemoryInfo t = parseAppMemoryInfo t) := by
  refine ⟨?_, fun t => rfl⟩
  intro st text now now' hg1 hg2 hlt
  have hst := parseNetworkData_state st text now hg1 hg2
  have h2 := parseNetworkData_rates ⟨now, rxKB text, txKB text⟩ text now'
    hg1 hg2 (by simp only []; linarith)
  have ht := parseNetworkData_totals st text now hg1 hg2
  rw [hst, h2]
  refine ⟨⟨by rw [ht.1], by rw [ht.2]⟩, ?_, ?_, ?_⟩ <;>
    simp [round2_zero]

/-- C6 witness: the amended theorem applied with no previous snapshot,
the demo text, and times 1 and 2 — the double parse agrees on totals
and reports zero rates the second time. -/
theorem C6_witness :
    (¬ pyStrip netDemoText = [] ∧
      ¬ (splitOnChar '\n' (pyStrip netDemoText)).length < 3 ∧ (1 : ℚ) < 2) ∧
    ((parseNetworkData (parseNetworkData none netDemoText 1).2
        netDemoText 2).1.network_rx_total
      = (parseNetworkData none netDemoText 1).1.network_rx_total ∧
     (parseNetworkData (parseNetworkData none netDemoText 1).2
        netDemoText 2).1.network_rx = some 0) ∧
    parseAppMemoryInfo netDemoText = parseAppMemoryInfo netDemoText := by
  have h := C6_parser_statefulness.1 none netDemoText 1 2 (by decide) (by decide)
    (by norm_num)
  exact ⟨⟨by decide, by decide, by norm_num⟩, ⟨h.1.1, h.2.1⟩,
    C6_parser_statefulness.2 netDemoText⟩

/-! ## C10: non-negative network rates -/

/-- C10: every network speed field computed from two successive
byte-counter samples is non-negative.  In `_parse_network_data`, any
present `network_rx`, `network_tx` or `network` value is `≥ 0`; in
`_get_system_network_stats` both rate fields, when set, are `≥ 0`; and
in `_get_network_via_traffic_stats_optimized` the rounded
`network_rx_rate` / `network_tx_rate` are always `≥ 0` — a decreasing
counter is clamped to `0` by `max(0, ...)` rather than emitted as a
negative rate. -/
theorem C10_nonneg_rates :
    (∀ (st : Option LastNet) (text : Str) (now v : ℚ),
      ((parseNetworkData st text now).1.network_rx = some v → 0 ≤ v) ∧
      ((parseNetworkData st text now).1.network_tx = some v → 0 ≤ v) ∧
      ((parseNetworkData st text now).1.network = some v → 0 ≤ v)) ∧
    (∀ (prev : Option LastNet) (rx tx now a b : ℚ),
      systemNetworkRates prev rx tx now = some (a, b) → 0 ≤ a ∧ 0 ≤ b) ∧
    (∀ (last : Option (ℚ × ℚ × ℚ)) (rx tx now : ℚ),
      0 ≤ round2 (trafficStatsRates last rx tx now).1 ∧
      0 ≤ round2 (trafficStatsRates last rx tx now).2) := by
  refine ⟨?_, ?_, ?_⟩
  · intro st text now v
    by_cases hg1 : pyStrip text = []
    · refine ⟨?_, ?_, ?_⟩ <;>
        · intro h
          simp only [parseNetworkData, if_pos hg1, defaultNetworkData] at h
          have hv := Option.some.inj h
          rw [← hv]
    · by_cases hg2 : (splitOnChar '\n' (pyStrip text)).length < 3
      · refine ⟨?_, ?_, ?_⟩ <;>
          · intro h
            simp only [parseNetworkData, if_neg hg1, if_pos hg2,
              defaultNetworkData] at h
            have hv := Option.some.inj h
            rw [← hv]
      · cases st with
        | none =>
          refine ⟨?_, ?_, ?_⟩ <;>
            · intro h
              simp only [parseNetworkData, if_neg hg1, if_neg hg2] at h
              have hv := Option.some.inj h
              rw [← hv]
        | some prev =>
          by_cases hdt : 0 < now - prev.time
          · have hr := parseNetworkData_rates prev text now hg1 hg2 hdt
            rw [hr]
            refine ⟨?_, ?_, ?_⟩ <;>
              · intro h
                have hv := Option.some.inj h
                rw [← hv]
                exact round2_nonneg (le_max_left _ _)
          · refine ⟨?_, ?_, ?_⟩ <;>
              · intro h
                simp only [parseNetworkData, if_neg hg1, if_neg hg2,
                  if_neg hdt] at h
                exact Option.noConfusion h
  · intro prev rx tx now a b h
    cases prev with
    | none => exact absurd h (by simp [systemNetworkRates])
    | some p =>
      by_cases hdt : 0 < now - p.time
      · simp only [systemNetworkRates, if_pos hdt] at h
        have hp := Option.some.inj h
        rw [Prod.mk.injEq] at hp
        obtain ⟨ha, hb⟩ := hp
        constructor
        · rw [← ha]
          exact round2_nonneg (le_max_left _ _)
        · rw [← hb]
          exact round2_nonneg (le_max_left _ _)
      · simp only [systemNetworkRates, if_neg hdt] at h
        exact Option.noConfusion h
  · intro last rx tx now
    cases last with
    | none =>
      simp only [trafficStatsRates]
      constructor <;> exact le_of_eq round2_zero.symm
    | some p =>
      obtain ⟨lrx, ltx, lt⟩ := p
      by_cases hdt : 0 < now - lt
      · simp only [trafficStatsRates, if_pos hdt]
        exact ⟨round2_nonneg (le_max_left _ _), round2_nonneg (le_max_left _ _)⟩
      · simp only [trafficStatsRates, if_neg hdt]
        constructor <;> exact le_of_eq round2_zero.symm

/-- C10 witness: the theorem applied at concrete inputs, including a
decreasing counter — `systemNetworkRates` over a snapshot whose rx
total dropped from 5 KB to 1 KB yields rate `0`, not a negative value,
and likewise for the traffic-stats rates. -/
theorem C10_witness :
    ((parseNetworkData none netDemoText 1).1.network_rx = some 0 ∧
      (0 : ℚ) ≤ 0) ∧
    (systemNetworkRates (some ⟨0, 5, 5⟩) 1 1 1 = some (0, 0) ∧
      (0 : ℚ) ≤ 0 ∧ (0 : ℚ) ≤ 0) ∧
    (0 ≤ round2 (trafficStatsRates (some (5, 5, 0)) 1 1 1).1 ∧
      0 ≤ round2 (trafficStatsRates (some (5, 5, 0)) 1 1 1).2) := by
  have hg1 : ¬ pyStrip netDemoText = [] := by decide
  have hg2 : ¬ (splitOnChar '\n' (pyStrip netDemoText)).length < 3 := by decide
  have hfresh : (parseNetworkData none netDemoText 1).1.network_rx = some 0 := by
    simp only [parseNetworkData, if_neg hg1, if_neg hg2]
  have hsys : systemNetworkRates (some ⟨0, 5, 5⟩) 1 1 1 = some (0, 0) := by
    simp only [systemNetworkRates]
    rw [if_pos (by norm_num)]
    norm_num [max_def, round2_zero]
  refine ⟨⟨hfresh, (C10_nonneg_rates.1 none netDemoText 1 0).1 hfresh⟩,
    ⟨hsys, (C10_nonneg_rates.2.1 (some ⟨0, 5, 5⟩) 1 1 1 0 0 hsys).1,
      (C10_nonneg_rates.2.1 (some ⟨0, 5, 5⟩) 1 1 1 0 0 hsys).2⟩,
    C10_nonneg_rates.2.2 (some (5, 5, 0)) 1 1 1⟩

/-! ## C8: buffered-writer flush triggers -/

theorem batchSizeLimit_le_bufferMaxLen (t : StorageTable) :
    batchSizeLimit t ≤ bufferMaxLen t := by
  cases t <;> decide

theorem batchSizeLimit_pos (t : StorageTable) : 1 ≤ batchSizeLimit t := by
  cases t <;> decide

theorem dequeAppend_small {m : ℕ} {l : List ℕ} {x : ℕ} (h : l.length < m) :
    dequeAppend m l x = l ++ [x] := by
  simp [dequeAppend, h]

theorem dequeAppend_ne_nil (m : ℕ) (l : List ℕ) (x : ℕ) :
    dequeAppend m l x ≠ [] := by
  unfold dequeAppend
  split <;> simp

theorem initStorage_eq_midState (t : StorageTable) (t0 : ℚ) :
    initStorage t0 = midState t t0 [] := by
  unfold initStorage midState
  congr 1
  funext u
  simp

/-- One enqueue into a partially filled table below both thresholds
neither flushes nor touches other state. -/
theorem addToBatch_fill (t : StorageTable) (t0 now : ℚ) (buf : List ℕ)
    (row : ℕ) (hlen : buf.length + 1 < batchSizeLimit t)
    (htime : ¬ flushInterval t ≤ now - t0) :
    addToBatch (midState t t0 buf) t row now = midState t t0 (buf ++ [row]) := by
  have hsmall : buf.length < bufferMaxLen t :=
    lt_of_lt_of_le (Nat.lt_of_succ_lt hlen) (batchSizeLimit_le_bufferMaxLen t)
  have hbuf : (fun u =>
      if u = t then dequeAppend (bufferMaxLen t) ((midState t t0 buf).buffers t) row
      else (midState t t0 buf).buffers u) =
      fun u => if u = t then buf ++ [row] else [] := by
    funext u
    by_cases hu : u = t
    · simp [hu, midState, dequeAppend_small hsmall]
    · simp [hu, midState]
  unfold addToBatch
  rw [if_neg]
  · rw [hbuf]
    rfl
  · push_neg
    constructor
    · simp [midState, dequeAppend_small hsmall]
      omega
    · simp only [midState]
      exact not_le.mp htime

/-- Filling a table with a batch that stays strictly below the size
threshold, within the flush interval, causes no flush at all. -/
theorem addSeq_fill (t : StorageTable) (t0 now : ℚ)
    (htime : ¬ flushInterval t ≤ now - t0) :
    ∀ (rows buf : List ℕ), buf.length + rows.length < batchSizeLimit t →
      addSeq (midState t t0 buf) t rows now = midState t t0 (buf ++ rows) := by
  intro rows
  induction rows with
  | nil => intro buf _; simp [addSeq]
  | cons r rs ih =>
    intro buf hlen
    have hstep : addToBatch (midState t t0 buf) t r now =
        midState t t0 (buf ++ [r]) := by
      apply addToBatch_fill t t0 now buf r _ htime
      simp only [List.length_cons] at hlen
      omega
    have : addSeq (midState t t0 buf) t (r :: rs) now =
        addSeq (midState t t0 (buf ++ [r])) t rs now := by
      simp [addSeq, hstep]
    rw [this, ih (buf ++ [r]) (by simp only [List.length_append,
      List.length_cons, List.length_nil] at hlen ⊢; omega)]
    simp

/-- C8: an enqueue triggers a flush exactly when the queue's length has
reached its per-type size threshold or the per-type flush interval has
elapsed since the last flush; a flush delivers the whole buffer as one
batch, clears the queue, and resets its timer; and in the concrete
scenario, enqueuing up to one less than the threshold causes no flush
while the threshold-th enqueue causes exactly one flush delivering all
buffered items. -/
theorem C8_buffered_writer_flush :
    (∀ (st : StorageState) (t : StorageTable) (row : ℕ) (now : ℚ),
      ((addToBatch st t row now).delivered ≠ st.delivered ↔
        batchSizeLimit t ≤
            (dequeAppend (bufferMaxLen t) (st.buffers t) row).length ∨
          flushInterval t ≤ now - st.lastFlush t) ∧
      (batchSizeLimit t ≤
            (dequeAppend (bufferMaxLen t) (st.buffers t) row).length ∨
          flushInterval t ≤ now - st.lastFlush t →
        (addToBatch st t row now).buffers t = [] ∧
        (addToBatch st t row now).lastFlush t = now ∧
        (addToBatch st t row now).delivered = st.delivered ++
          [(t, dequeAppend (bufferMaxLen t) (st.buffers t) row)]) ∧
      (¬ (batchSizeLimit t ≤
            (dequeAppend (bufferMaxLen t) (st.buffers t) row).length ∨
          flushInterval t ≤ now - st.lastFlush t) →
        (addToBatch st t row now).buffers t =
          dequeAppend (bufferMaxLen t) (st.buffers t) row ∧
        (addToBatch st t row now).lastFlush t = st.lastFlush t ∧
        (addToBatch st t row now).delivered = st.delivered))
    ∧
    (∀ (t : StorageTable) (t0 now : ℚ) (first : List ℕ) (last : ℕ),
      first.length = batchSizeLimit t - 1 →
      ¬ flushInterval t ≤ now - t0 →
      (addSeq (initStorage t0) t first now).delivered = [] ∧
      (addSeq (initStorage t0) t (first ++ [last]) now).delivered =
        [(t, first ++ [last])] ∧
      (addSeq (initStorage t0) t (first ++ [last]) now).buffers t = [] ∧
      (addSeq (initStorage t0) t (first ++ [last]) now).lastFlush t = now) := by
  constructor
  · intro st t row now
    by_cases hc : batchSizeLimit t ≤
        (dequeAppend (bufferMaxLen t) (st.buffers t) row).length ∨
        flushInterval t ≤ now - st.lastFlush t
    · have hres : addToBatch st t row now = flushBuffer
          { st with buffers := fun u =>
              if u = t then dequeAppend (bufferMaxLen t) (st.buffers t) row
              else st.buffers u } t now := by
        unfold addToBatch
        rw [if_pos]
        simpa using hc
      have hne : (fun u =>
          if u = t then dequeAppend (bufferMaxLen t) (st.buffers t) row
          else st.buffers u) t ≠ [] := by
        simpa using dequeAppend_ne_nil (bufferMaxLen t) (st.buffers t) row
      have hflush : addToBatch st t row now = StorageState.mk
          (fun u => if u = t then [] else
            (if u = t then dequeAppend (bufferMaxLen t) (st.buffers t) row
             else st.buffers u))
          (fun u => if u = t then now else st.lastFlush u)
          (st.delivered ++
            [(t, dequeAppend (bufferMaxLen t) (st.buffers t) row)]) := by
        rw [hres]
        unfold flushBuffer
        rw [if_neg hne]
        simp
      refine ⟨⟨fun _ => hc, fun _ => ?_⟩, fun _ => ?_, fun hnc => absurd hc hnc⟩
      · rw [hflush]
        intro heq
        simpa using congrArg List.length heq
      · rw [hflush]
        exact ⟨by simp, by simp, rfl⟩
    · have hres : addToBatch st t row now =
          { st with buffers := fun u =>
              if u = t then dequeAppend (bufferMaxLen t) (st.buffers t) row
              else st.buffers u } := by
        unfold addToBatch
        rw [if_neg]
        simpa using hc
      refine ⟨⟨fun hne => absurd ?_ hne, fun hcc => absurd hcc hc⟩,
        fun hcc => absurd hcc hc, fun _ => ?_⟩
      · rw [hres]
      · rw [hres]
        exact ⟨by simp, rfl, rfl⟩
  · intro t t0 now first last hfirst htime
    have hL := batchSizeLimit_pos t
    have h49 : addSeq (initStorage t0) t first now = midState t t0 first := by
      rw [initStorage_eq_midState t t0]
      have := addSeq_fill t t0 now htime first [] (by simp [hfirst]; omega)
      simpa using this
    have hfull : addSeq (initStorage t0) t (first ++ [last]) now =
        addToBatch (midState t t0 first) t last now := by
      have : addSeq (initStorage t0) t (first ++ [last]) now =
          addToBatch (addSeq (initStorage t0) t first now) t last now := by
        simp [addSeq]
      rw [this, h49]
    have hsmall : first.length < bufferMaxLen t := by
      have := batchSizeLimit_le_bufferMaxLen t
      omega
    have hcond : batchSizeLimit t ≤ (dequeAppend (bufferMaxLen t)
        ((midState t t0 first).buffers t) last).length := by
      simp [midState, dequeAppend_small hsmall, hfirst]
      omega
    have hfin : addToBatch (midState t t0 first) t last now = StorageState.mk
        (fun u => if u = t then [] else
          (if u = t then dequeAppend (bufferMaxLen t) first last
           else (midState t t0 first).buffers u))
        (fun u => if u = t then now else t0)
        [(t, first ++ [last])] := by
      unfold addToBatch
      rw [if_pos (Or.inl (by simpa [midState] using hcond))]
      unfold flushBuffer
      rw [if_neg (by simpa [midState] using
        dequeAppend_ne_nil (bufferMaxLen t) first last)]
      simp [midState, dequeAppend_small hsmall]
    refine ⟨by rw [h49]; rfl, ?_, ?_, ?_⟩ <;> rw [hfull, hfin] <;> simp

/-- C8 witness: the theorem applied to `system_performance` (threshold
50, interval 5 s): 49 enqueues at time 1 cause no flush; the 50th
causes exactly one flush delivering all 50 items in one batch, clearing
the queue and resetting the timer. -/
theorem C8_witness :
    ((List.range 49).length =
        batchSizeLimit StorageTable.system_performance - 1 ∧
      ¬ flushInterval StorageTable.system_performance ≤ (1 : ℚ) - 0) ∧
    (addSeq (initStorage 0) StorageTable.system_performance
        (List.range 49) 1).delivered = [] ∧
    (addSeq (initStorage 0) StorageTable.system_performance
        (List.range 49 ++ [49]) 1).delivered =
      [(StorageTable.system_performance, List.range 49 ++ [49])] ∧
    (addSeq (initStorage 0) StorageTable.system_performance
        (List.range 49 ++ [49]) 1).buffers
        StorageTable.system_performance = [] ∧
    (addSeq (initStorage 0) StorageTable.system_performance
        (List.range 49 ++ [49]) 1).lastFlush
        StorageTable.system_performance = 1 := by
  have h := C8_buffered_writer_flush.2 StorageTable.system_performance 0 1
    (List.range 49) 49 (by decide) (by norm_num [flushInterval])
  exact ⟨⟨by decide, by norm_num [flushInterval]⟩, h.1, h.2.1, h.2.2.1, h.2.2.2⟩

/-! ## C9: command-runner bounded retry -/

theorem runAdbAux_attempts (logErrors : Bool) (outcomes : ℕ → AdbAttempt)
    (rc : ℕ) :
    ∀ (fuel i : ℕ) (logged : List ℕ) (sleeps : ℕ),
      (runAdbAux logErrors outcomes rc i fuel logged sleeps).attempts ≤
        i + fuel := by
  intro fuel
  induction fuel with
  | zero => intro i logged sleeps; simp [runAdbAux]
  | succ f ih =>
    intro i logged sleeps
    unfold runAdbAux
    cases houtcome : outcomes i with
    | ok out => simp
    | timeout =>
      refine le_trans (ih (i + 1) _ _) (by omega)
    | processError =>
      refine le_trans (ih (i + 1) _ _) (by omega)
    | otherError =>
      refine le_trans (ih (i + 1) _ _) (by omega)

theorem runAdbAux_all_fail (logErrors : Bool) (outcomes : ℕ → AdbAttempt)
    (rc : ℕ) :
    ∀ (fuel i : ℕ) (logged : List ℕ) (sleeps : ℕ),
      i + fuel = rc →
      (∀ j, i ≤ j → j < rc → (outcomes j).isOk = false) →
      runAdbAux logErrors outcomes rc i fuel logged sleeps =
        ⟨none, rc,
          if logErrors = true ∧ 1 ≤ fuel then logged ++ [rc - 1] else logged,
          sleeps + (fuel - 1)⟩ := by
  intro fuel
  induction fuel with
  | zero =>
    intro i logged sleeps hsum _
    simp [runAdbAux]
    omega
  | succ f ih =>
    intro i logged sleeps hsum hfail
    have hi : i < rc := by omega
    have hfck : (outcomes i).isOk = false := hfail i le_rfl hi
    unfold runAdbAux
    cases houtcome : outcomes i with
    | ok out =>
      rw [houtcome] at hfck
      simp [AdbAttempt.isOk] at hfck
    | timeout =>
      rcases Nat.eq_zero_or_pos f with hf0 | hfpos
      · subst hf0
        have hieq : i = rc - 1 := by omega
        have hnotlt : ¬ i < rc - 1 := by omega
        simp only [runAdbAux, hieq, and_true, hnotlt, if_false]
        by_cases hlog : logErrors = true <;> simp [hlog] <;> omega
      · have hne : ¬ i = rc - 1 := by omega
        have hlt : i < rc - 1 := by omega
        simp only [hne, and_false, if_false, hlt, if_true]
        rw [ih (i + 1) logged (sleeps + 1) (by omega)
          (fun j hj hjr => hfail j (by omega) hjr)]
        by_cases hlog : logErrors = true
        · rw [if_pos ⟨hlog, by omega⟩, if_pos ⟨hlog, by omega⟩]
          congr 1
          omega
        · rw [if_neg (fun hh => hlog hh.1), if_neg (fun hh => hlog hh.1)]
          congr 1
          omega
    | processError =>
      rcases Nat.eq_zero_or_pos f with hf0 | hfpos
      · subst hf0
        have hieq : i = rc - 1 := by omega
        have hnotlt : ¬ i < rc - 1 := by omega
        simp only [runAdbAux, hieq, and_true, hnotlt, if_false]
        by_cases hlog : logErrors = true <;> simp [hlog] <;> omega
      · have hne : ¬ i = rc - 1 := by omega
        have hlt : i < rc - 1 := by omega
        simp only [hne, and_false, if_false, hlt, if_true]
        rw [ih (i + 1) logged (sleeps + 1) (by omega)
          (fun j hj hjr => hfail j (by omega) hjr)]
        by_cases hlog : logErrors = true
        · rw [if_pos ⟨hlog, by omega⟩, if_pos ⟨hlog, by omega⟩]
          congr 1
          omega
        · rw [if_neg (fun hh => hlog hh.1), if_neg (fun hh => hlog hh.1)]
          congr 1
          omega
    | otherError =>
      rcases Nat.eq_zero_or_pos f with hf0 | hfpos
      · subst hf0
        have hieq : i = rc - 1 := by omega
        have hnotlt : ¬ i < rc - 1 := by omega
        simp only [runAdbAux, hieq, and_true, hnotlt, if_false]
        by_cases hlog : logErrors = true <;> simp [hlog] <;> omega
      · have hne : ¬ i = rc - 1 := by omega
        have hlt : i < rc - 1 := by omega
        simp only [hne, and_false, if_false, hlt, if_true]
        rw [ih (i + 1) logged (sleeps + 1) (by omega)
          (fun j hj hjr => hfail j (by omega) hjr)]
        by_cases hlog : logErrors = true
        · rw [if_pos ⟨hlog, by omega⟩, if_pos ⟨hlog, by omega⟩]
          congr 1
          omega
        · rw [if_neg (fun hh => hlog hh.1), if_neg (fun hh => hlog hh.1)]
          congr 1
          omega

theorem runAdbAux_success (logErrors : Bool) (outcomes : ℕ → AdbAttempt)
    (rc : ℕ) :
    ∀ (fuel i k : ℕ) (out : Str) (logged : List ℕ) (sleeps : ℕ),
      i ≤ k → k < i + fuel → i + fuel = rc →
      (∀ j, i ≤ j → j < k → (outcomes j).isOk = false) →
      outcomes k = AdbAttempt.ok out →
      runAdbAux logErrors outcomes rc i fuel logged sleeps =
        ⟨some out, k + 1, logged, sleeps + (k - i)⟩ := by
  intro fuel
  induction fuel with
  | zero =>
    intro i k out logged sleeps hik hkf _ _ _
    omega
  | succ f ih =>
    intro i k out logged sleeps hik hkf hsum hfail hk
    by_cases hieq : i = k
    · subst hieq
      unfold runAdbAux
      rw [hk]
      simp
    · have hlt : i < k := lt_of_le_of_ne hik hieq
      have hfck : (outcomes i).isOk = false := hfail i le_rfl hlt
      have hirc : i < rc - 1 := by omega
      have hine : ¬ i = rc - 1 := by omega
      unfold runAdbAux
      cases houtcome : outcomes i with
      | ok out2 =>
        rw [houtcome] at hfck
        simp [AdbAttempt.isOk] at hfck
      | timeout =>
        simp only [hine, and_false, if_false, hirc, if_true]
        rw [ih (i + 1) k out logged (sleeps + 1) (by omega) (by omega) (by omega)
          (fun j hj hjk => hfail j (by omega) hjk) hk]
        congr 1
        omega
      | processError =>
        simp only [hine, and_false, if_false, hirc, if_true]
        rw [ih (i + 1) k out logged (sleeps + 1) (by omega) (by omega) (by omega)
          (fun j hj hjk => hfail j (by omega) hjk) hk]
        congr 1
        omega
      | otherError =>
        simp only [hine, and_false, if_false, hirc, if_true]
        rw [ih (i + 1) k out logged (sleeps + 1) (by omega) (by omega) (by omega)
          (fun j hj hjk => hfail j (by omega) hjk) hk]
        congr 1
        omega

/-- C9: running a single device command makes at most `retries` total
attempts; when every attempt fails (timeout, non-zero exit such as a
missing device, or any other exception) the call returns absent rather
than raising, makes exactly `retries` attempts with a backoff sleep
between consecutive attempts (`retries - 1` sleeps), and logs only the
final failed attempt (and nothing when logging is off); when attempt
`k` is the first to succeed, its output is returned after `k + 1`
attempts, `k` backoffs, and no failure is logged. -/
theorem C9_run_adb_command :
    ∀ (rc : ℕ) (logErrors : Bool) (outcomes : ℕ → AdbAttempt),
      (runAdbCommand rc logErrors outcomes).attempts ≤ rc ∧
      ((∀ i, i < rc → (outcomes i).isOk = false) →
        (runAdbCommand rc logErrors outcomes).output = none ∧
        (runAdbCommand rc logErrors outcomes).attempts = rc ∧
        (runAdbCommand rc logErrors outcomes).sleeps = rc - 1 ∧
        (logErrors = true → 1 ≤ rc →
          (runAdbCommand rc logErrors outcomes).logged = [rc - 1]) ∧
        (logErrors = false →
          (runAdbCommand rc logErrors outcomes).logged = [])) ∧
      (∀ (k : ℕ) (out : Str), k < rc →
        (∀ j, j < k → (outcomes j).isOk = false) →
        outcomes k = AdbAttempt.ok out →
        (runAdbCommand rc logErrors outcomes).output = some out ∧
        (runAdbCommand rc logErrors outcomes).attempts = k + 1 ∧
        (runAdbCommand rc logErrors outcomes).logged = [] ∧
        (runAdbCommand rc logErrors outcomes).sleeps = k) := by
  intro rc logErrors outcomes
  refine ⟨?_, ?_, ?_⟩
  · simpa using runAdbAux_attempts logErrors outcomes rc rc 0 [] 0
  · intro hfail
    have h := runAdbAux_all_fail logErrors outcomes rc rc 0 [] 0 (by omega)
      (fun j _ hj => hfail j hj)
    unfold runAdbCommand
    rw [h]
    refine ⟨rfl, rfl, by simp, ?_, ?_⟩
    · intro hlog hrc
      rw [if_pos ⟨hlog, hrc⟩]
      simp
    · intro hlog
      rw [if_neg (fun hh => by rw [hlog] at hh; exact Bool.noConfusion hh.1)]
  · intro k out hk hfirst hok
    have h := runAdbAux_success logErrors outcomes rc rc 0 k out [] 0
      (by omega) (by omega) (by omega) (fun j _ hjk => hfirst j hjk) hok
    unfold runAdbCommand
    rw [h]
    exact ⟨rfl, rfl, rfl, by simp⟩

/-- C9 witness: the theorem applied at concrete inputs — three always
failing attempts (`retries = 3`) return absent after exactly 3
attempts, 2 backoffs, and a single log entry for attempt 2; and a run
whose first attempt times out but whose second succeeds returns that
output after 2 attempts with nothing logged. -/
theorem C9_witness :
    ((runAdbCommand 3 true (fun _ => AdbAttempt.timeout)).output = none ∧
      (runAdbCommand 3 true (fun _ => AdbAttempt.timeout)).attempts = 3 ∧
      (runAdbCommand 3 true (fun _ => AdbAttempt.timeout)).sleeps = 2 ∧
      (runAdbCommand 3 true (fun _ => AdbAttempt.timeout)).logged = [2]) ∧
    ((runAdbCommand 3 true
        (fun i => if i = 0 then AdbAttempt.timeout
          else AdbAttempt.ok ['y'])).output = some ['y'] ∧
      (runAdbCommand 3 true
        (fun i => if i = 0 then AdbAttempt.timeout
          else AdbAttempt.ok ['y'])).attempts = 2 ∧
      (runAdbCommand 3 true
        (fun i => if i = 0 then AdbAttempt.timeout
          else AdbAttempt.ok ['y'])).logged = []) := by
  have h1 := (C9_run_adb_command 3 true (fun _ => AdbAttempt.timeout)).2.1
    (by decide)
  have h2 := (C9_run_adb_command 3 true
    (fun i => if i = 0 then AdbAttempt.timeout else AdbAttempt.ok ['y'])).2.2
    1 ['y'] (by decide) (by decide) (by decide)
  exact ⟨⟨h1.1, h1.2.1, h1.2.2.1, h1.2.2.2.1 rfl (by decide)⟩,
    h2.1, h2.2.1, h2.2.2.1⟩

/-! ## C7: tiered-cache eviction and demotion -/

theorem oldest_keep (q : Str × CacheEntry) :
    ∀ l : List (Str × CacheEntry),
      (∀ p ∈ l, q.2.time < p.2.time) →
      l.foldl
        (fun acc p =>
          match acc with
          | none => some p
          | some r => if p.2.time < r.2.time then some p else some r)
        (some q) = some q := by
  intro l
  induction l with
  | nil => intro _; rfl
  | cons p rest ih =>
    intro h
    have hq : ¬ p.2.time < q.2.time := not_lt.mpr (le_of_lt (h p (by simp)))
    simp only [List.foldl_cons, hq, if_false]
    exact ih fun r hr => h r (by simp [hr])

/-- With strictly increasing stamps the oldest entry is the head. -/
theorem oldestEntry_eq_head (e : Str × CacheEntry)
    (l : List (Str × CacheEntry))
    (hp : (e :: l).Pairwise (fun a b => a.2.time < b.2.time)) :
    oldestEntry (e :: l) = some e := by
  unfold oldestEntry
  simp only [List.foldl_cons]
  exact oldest_keep e l (List.pairwise_cons.mp hp).1

/-- Deleting the head key of a duplicate-free association list keeps
exactly the tail. -/
theorem eraseKey_head (e : Str × CacheEntry) (l : List (Str × CacheEntry))
    (h : e.1 ∉ l.map Prod.fst) : eraseKey (e :: l) e.1 = l := by
  unfold eraseKey
  rw [List.filter_cons, if_neg (by simp), List.filter_eq_self.mpr]
  intro p hp
  have hne : p.1 ≠ e.1 := fun hh => h (hh ▸ List.mem_map.mpr ⟨p, hp, rfl⟩)
  simpa using hne

theorem not_mem_keys_sublist {l' l : List (Str × CacheEntry)}
    (hs : List.Sublist l' l) {k : Str} (h : k ∉ l.map Prod.fst) :
    k ∉ l'.map Prod.fst :=
  fun hm => h ((List.Sublist.map Prod.fst hs).subset hm)

theorem put_full_demote (L1 L2 : List (Str × CacheEntry)) (N1 N2 : ℕ)
    (e0 : Str × CacheEntry) (t1 : List (Str × CacheEntry)) (k : Str) (v : ℤ)
    (ts : ℚ)
    (hL1 : L1 = e0 :: t1)
    (hfull : N1 ≤ L1.length)
    (holdest : oldestEntry L1 = some e0)
    (herase : eraseKey L1 e0.1 = t1)
    (hk : k ∉ t1.map Prod.fst)
    (hups : upsert L2 e0.1 e0.2 = L2 ++ [e0]) :
    EnhancedCache.put ⟨L1, L2, N1, N2⟩ k v ts =
      if N2 ≤ (L2 ++ [e0]).length then
        match oldestEntry (L2 ++ [e0]) with
        | some p => ⟨t1 ++ [(k, ⟨v, ts⟩)], eraseKey (L2 ++ [e0]) p.1, N1, N2⟩
        | none => ⟨t1 ++ [(k, ⟨v, ts⟩)], L2 ++ [e0], N1, N2⟩
      else ⟨t1 ++ [(k, ⟨v, ts⟩)], L2 ++ [e0], N1, N2⟩ := by
  subst hL1
  simp only [EnhancedCache.put, if_pos hfull, holdest, herase, hups,
    upsert_eq_append_of_not_mem_keys t1 k ⟨v, ts⟩ hk]

theorem putSeq_spec (N1 N2 : ℕ) (hN1 : 1 ≤ N1) (hN2 : 2 ≤ N2) :
    ∀ (items : List (Str × ℤ × ℚ)),
      (((items.map toEntry).map Prod.fst)).Nodup →
      (items.map toEntry).Pairwise (fun a b => a.2.time < b.2.time) →
      putSeq ⟨[], [], N1, N2⟩ items =
        ⟨cacheL1State N1 (items.map toEntry),
         cacheL2State N1 N2 (items.map toEntry), N1, N2⟩ := by
  intro items
  induction items using List.reverseRecOn with
  | nil =>
    intro _ _
    simp [putSeq, cacheL1State, cacheL2State]
  | append_singleton items x ih =>
    intro hkeys htimes
    rw [List.map_append] at hkeys htimes
    set E := items.map toEntry with hE
    have hkeys' : (E.map Prod.fst).Nodup := by
      rw [List.map_append] at hkeys
      exact (List.nodup_append.mp hkeys).1
    have htimes' : E.Pairwise (fun a b => a.2.time < b.2.time) :=
      List.Pairwise.sublist (List.sublist_append_left E ([x].map toEntry)) htimes
    have hxfresh : x.1 ∉ E.map Prod.fst := by
      rw [List.map_append] at hkeys
      intro hm
      have hdisj := (List.nodup_append.mp hkeys).2.2
      exact hdisj hm (by simp [toEntry])
    have hput : putSeq ⟨[], [], N1, N2⟩ (items ++ [x]) =
        (putSeq ⟨[], [], N1, N2⟩ items).put x.1 x.2.1 x.2.2 := by
      simp [putSeq]
    rw [hput, ih hkeys' htimes', List.map_append]
    simp only [List.map_cons, List.map_nil] at *
    by_cases hm : E.length < N1
    · have hd0 : E.length - N1 = 0 := Nat.sub_eq_zero_of_le (le_of_lt hm)
      have hd0' : (E ++ [toEntry x]).length - N1 = 0 := by
        simp only [List.length_append, List.length_cons, List.length_nil]
        omega
      have hL1E : cacheL1State N1 E = E := by
        unfold cacheL1State
        rw [hd0, List.drop_zero]
      have hL2E : cacheL2State N1 N2 E = [] := by
        unfold cacheL2State
        simp only [hd0]
        rw [if_pos (by omega), List.take_zero]
      have hL1E' : cacheL1State N1 (E ++ [toEntry x]) = E ++ [toEntry x] := by
        unfold cacheL1State
        rw [hd0', List.drop_zero]
      have hL2E' : cacheL2State N1 N2 (E ++ [toEntry x]) = [] := by
        unfold cacheL2State
        simp only [hd0']
        rw [if_pos (by omega), List.take_zero]
      rw [hL1E, hL2E, hL1E', hL2E']
      have hxfresh2 : x.1 ∉ E.map Prod.fst := hxfresh
      unfold EnhancedCache.put
      simp only [if_neg (not_le.mpr hm)]
      rw [upsert_eq_append_of_not_mem_keys E x.1 ⟨x.2.1, x.2.2⟩ hxfresh2]
      simp only [List.length_nil, if_neg (by omega : ¬ N2 ≤ 0)]
      rfl
    · push_neg at hm
      have hlenL1 : (cacheL1State N1 E).length = N1 := by
        unfold cacheL1State
        rw [List.length_drop]
        omega
      cases hL1 : cacheL1State N1 E with
      | nil =>
        rw [hL1] at hlenL1
        simp at hlenL1
        omega
      | cons e0 t1 =>
        have hsubL1 : List.Sublist (e0 :: t1) E := by
          rw [← hL1]
          unfold cacheL1State
          exact List.drop_sublist _ _
        have hpairL1 : (e0 :: t1).Pairwise (fun a b => a.2.time < b.2.time) :=
          List.Pairwise.sublist hsubL1 htimes'
        have holdest : oldestEntry (e0 :: t1) = some e0 :=
          oldestEntry_eq_head e0 t1 hpairL1
        have hnodupL1 : ((e0 :: t1).map Prod.fst).Nodup :=
          List.Sublist.nodup (List.Sublist.map Prod.fst hsubL1) hkeys'
        have he0t1 : e0.1 ∉ t1.map Prod.fst := by
          rw [List.map_cons, List.nodup_cons] at hnodupL1
          exact hnodupL1.1
        have herase : eraseKey (e0 :: t1) e0.1 = t1 := eraseKey_head e0 t1 he0t1
        have hdropE : E.drop (E.length - N1) = e0 :: t1 := hL1
        have htakedropE : E.take (E.length - N1) ++ (e0 :: t1) = E := by
          rw [← hdropE]
          exact List.take_append_drop _ _
        have hkeysplit : ((E.take (E.length - N1)).map Prod.fst ++
            ((e0 :: t1).map Prod.fst)).Nodup := by
          rw [← List.map_append, htakedropE]
          exact hkeys'
        have he0take : e0.1 ∉ (E.take (E.length - N1)).map Prod.fst := by
          intro hmem
          exact ((List.nodup_append.mp hkeysplit).2.2 hmem)
            (List.mem_map_of_mem Prod.fst (List.mem_cons_self e0 t1))
        have hsubL2take : List.Sublist (cacheL2State N1 N2 E)
            (E.take (E.length - N1)) := by
          show List.Sublist
            (if E.length - N1 < N2 then E.take (E.length - N1)
             else (E.take (E.length - N1)).drop (E.length - N1 - N2 + 1))
            (E.take (E.length - N1))
          split
          · exact List.Sublist.refl _
          · exact List.drop_sublist _ _
        have he0L2 : e0.1 ∉ (cacheL2State N1 N2 E).map Prod.fst :=
          not_mem_keys_sublist hsubL2take he0take
        have hupsL2 : upsert (cacheL2State N1 N2 E) e0.1 e0.2 =
            cacheL2State N1 N2 E ++ [e0] :=
          upsert_eq_append_of_not_mem_keys _ _ _ he0L2
        have hxt1 : x.1 ∉ t1.map Prod.fst :=
          not_mem_keys_sublist ((List.sublist_cons_self e0 t1).trans hsubL1)
            hxfresh
        have hlen2 : N1 ≤ (e0 :: t1).length := by
          rw [← hL1, hlenL1]
        rw [put_full_demote (e0 :: t1) (cacheL2State N1 N2 E) N1 N2 e0 t1
          x.1 x.2.1 x.2.2 rfl hlen2 holdest herase hxt1 hupsL2]
        -- target tier-1 in all subcases
        have hRl1 : cacheL1State N1 (E ++ [toEntry x]) = t1 ++ [toEntry x] := by
          unfold cacheL1State
          have hlen : (E ++ [toEntry x]).length = E.length + 1 := by simp
          rw [hlen, (by omega : E.length + 1 - N1 = (E.length - N1) + 1),
            List.drop_append_of_le_length (by omega)]
          have hdd : E.drop ((E.length - N1) + 1) =
              (E.drop (E.length - N1)).drop 1 := by
            rw [List.drop_drop, Nat.add_comm]
          rw [hdd, hdropE]
          rfl
        have htake1 : E.take ((E.length - N1) + 1) =
            E.take (E.length - N1) ++ [e0] := by
          rw [List.take_add, hdropE]
          rfl
        have hlenE' : (E ++ [toEntry x]).length = E.length + 1 := by simp
        have hd' : (E ++ [toEntry x]).length - N1 = (E.length - N1) + 1 := by
          rw [hlenE']
          omega
        have hdlen : E.length - N1 + 1 ≤ E.length := by omega
        by_cases hA : E.length - N1 + 1 < N2
        · have hL2eq : cacheL2State N1 N2 E = E.take (E.length - N1) := by
            show (if E.length - N1 < N2 then E.take (E.length - N1)
               else (E.take (E.length - N1)).drop (E.length - N1 - N2 + 1)) = _
            rw [if_pos (by omega)]
          have hRl2A : cacheL2State N1 N2 (E ++ [toEntry x]) =
              E.take (E.length - N1) ++ [e0] := by
            show (if (E ++ [toEntry x]).length - N1 < N2 then
                (E ++ [toEntry x]).take ((E ++ [toEntry x]).length - N1)
               else ((E ++ [toEntry x]).take ((E ++ [toEntry x]).length - N1)).drop
                ((E ++ [toEntry x]).length - N1 - N2 + 1)) = _
            rw [hd', if_pos (by omega),
              List.take_append_of_le_length (by omega), htake1]
          rw [hL2eq]
          rw [if_neg (by simp [List.length_take]; omega)]
          rw [hRl1, hRl2A]
          rfl
        · by_cases hB : E.length - N1 < N2
          · -- d + 1 = N2
            have hL2eq : cacheL2State N1 N2 E = E.take (E.length - N1) := by
              show (if E.length - N1 < N2 then E.take (E.length - N1)
                 else (E.take (E.length - N1)).drop (E.length - N1 - N2 + 1)) = _
              rw [if_pos hB]
            have hlentake1 : (E.take ((E.length - N1) + 1)).length =
                (E.length - N1) + 1 := by
              rw [List.length_take]
              omega
            cases hW : E.take ((E.length - N1) + 1) with
            | nil =>
              rw [hW] at hlentake1
              simp at hlentake1
            | cons f0 ft =>
              have hsubW : List.Sublist (f0 :: ft) E := by
                rw [← hW]
                exact List.take_sublist _ _
              have hpairW : (f0 :: ft).Pairwise
                  (fun a b => a.2.time < b.2.time) :=
                List.Pairwise.sublist hsubW htimes'
              have holdW : oldestEntry (f0 :: ft) = some f0 :=
                oldestEntry_eq_head f0 ft hpairW
              have hnodupW : ((f0 :: ft).map Prod.fst).Nodup :=
                List.Sublist.nodup (List.Sublist.map Prod.fst hsubW) hkeys'
              have hf0ft : f0.1 ∉ ft.map Prod.fst := by
                rw [List.map_cons, List.nodup_cons] at hnodupW
                exact hnodupW.1
              have heraseW : eraseKey (f0 :: ft) f0.1 = ft :=
                eraseKey_head f0 ft hf0ft
              have hRl2B : cacheL2State N1 N2 (E ++ [toEntry x]) = ft := by
                show (if (E ++ [toEntry x]).length - N1 < N2 then
                    (E ++ [toEntry x]).take ((E ++ [toEntry x]).length - N1)
                   else ((E ++ [toEntry x]).take
                      ((E ++ [toEntry x]).length - N1)).drop
                    ((E ++ [toEntry x]).length - N1 - N2 + 1)) = ft
                rw [hd', if_neg (by omega),
                  List.take_append_of_le_length (by omega), hW,
                  (by omega : E.length - N1 + 1 - N2 + 1 = 1)]
                rfl
              have hlenW : (f0 :: ft).length = E.length - N1 + 1 := by
                rw [← hW]
                exact hlentake1
              rw [hL2eq, ← htake1, hW,
                if_pos (show N2 ≤ (f0 :: ft).length by rw [hlenW]; omega)]
              simp only [holdW]
              rw [heraseW, hRl1, hRl2B]
              rfl
          · -- N2 ≤ d: sliding window
            have hL2eq : cacheL2State N1 N2 E =
                (E.take (E.length - N1)).drop (E.length - N1 - N2 + 1) := by
              show (if E.length - N1 < N2 then E.take (E.length - N1)
                 else (E.take (E.length - N1)).drop (E.length - N1 - N2 + 1)) = _
              rw [if_neg hB]
            have hjle : E.length - N1 - N2 + 1 ≤ (E.take (E.length - N1)).length := by
              rw [List.length_take]
              omega
            have hWeq : cacheL2State N1 N2 E ++ [e0] =
                (E.take ((E.length - N1) + 1)).drop (E.length - N1 - N2 + 1) := by
              rw [hL2eq, htake1, List.drop_append_of_le_length hjle]
            cases hW : (E.take ((E.length - N1) + 1)).drop
                (E.length - N1 - N2 + 1) with
            | nil =>
              rw [hW] at hWeq
              simp at hWeq
            | cons g0 gt =>
              have hsubW : List.Sublist (g0 :: gt) E := by
                rw [← hW]
                exact (List.drop_sublist _ _).trans (List.take_sublist _ _)
              have hpairW : (g0 :: gt).Pairwise
                  (fun a b => a.2.time < b.2.time) :=
                List.Pairwise.sublist hsubW htimes'
              have holdW : oldestEntry (g0 :: gt) = some g0 :=
                oldestEntry_eq_head g0 gt hpairW
              have hnodupW : ((g0 :: gt).map Prod.fst).Nodup :=
                List.Sublist.nodup (List.Sublist.map Prod.fst hsubW) hkeys'
              have hg0gt : g0.1 ∉ gt.map Prod.fst := by
                rw [List.map_cons, List.nodup_cons] at hnodupW
                exact hnodupW.1
              have heraseW : eraseKey (g0 :: gt) g0.1 = gt :=
                eraseKey_head g0 gt hg0gt
              have hlenL2C : (cacheL2State N1 N2 E).length = N2 - 1 := by
                rw [hL2eq, List.length_drop, List.length_take]
                omega
              have hRl2C : cacheL2State N1 N2 (E ++ [toEntry x]) = gt := by
                show (if (E ++ [toEntry x]).length - N1 < N2 then
                    (E ++ [toEntry x]).take ((E ++ [toEntry x]).length - N1)
                   else ((E ++ [toEntry x]).take
                      ((E ++ [toEntry x]).length - N1)).drop
                    ((E ++ [toEntry x]).length - N1 - N2 + 1)) = gt
                rw [hd', if_neg (by omega),
                  List.take_append_of_le_length (by omega),
                  (by omega : E.length - N1 + 1 - N2 + 1 =
                    (E.length - N1 - N2 + 1) + 1),
                  (by rw [List.drop_drop, Nat.add_comm] :
                    (E.take ((E.length - N1) + 1)).drop
                      ((E.length - N1 - N2 + 1) + 1) =
                    ((E.take ((E.length - N1) + 1)).drop
                      (E.length - N1 - N2 + 1)).drop 1),
                  hW]
                rfl
              rw [hWeq, hW,
                if_pos (show N2 ≤ (g0 :: gt).length by
                  have : (g0 :: gt).length = (cacheL2State N1 N2 E ++ [e0]).length := by
                    rw [hWeq, hW]
                  rw [this, List.length_append, hlenL2C]
                  simp
                  omega)]
              simp only [holdW]
              rw [heraseW, hRl1, hRl2C]
              rfl

theorem sublist_drop_cons {α : Type} (y : α) (l : List α) (i : ℕ)
    (hi : 1 ≤ i) : List.Sublist ((y :: l).drop i) l := by
  obtain ⟨i', rfl⟩ : ∃ i', i = i' + 1 := ⟨i - 1, by omega⟩
  rw [List.drop_succ_cons]
  exact List.drop_sublist _ _

theorem sublist_drop_take_cons {α : Type} (y : α) (l : List α) (i j : ℕ)
    (hi : 1 ≤ i) (hj : 1 ≤ j) :
    List.Sublist (((y :: l).take i).drop j) l := by
  obtain ⟨i', rfl⟩ : ∃ i', i = i' + 1 := ⟨i - 1, by omega⟩
  obtain ⟨j', rfl⟩ : ∃ j', j = j' + 1 := ⟨j - 1, by omega⟩
  rw [List.take_succ_cons, List.drop_succ_cons]
  exact (List.drop_sublist _ _).trans (List.take_sublist _ _)

/-- C7: starting from an empty cache with tier capacities `N1`/`N2`
(the code instantiates `N1 = 100`, `N2 = 500`), inserting `N1 + 1`
distinct keys with increasing timestamps moves exactly one entry — the
single oldest by `stored_at`, i.e. the first inserted — from tier-1
into tier-2 (demoted, not deleted), leaving the `N1` newest in tier-1;
and once the total number of distinct keys inserted reaches (and hence
whenever it exceeds) `N1 + N2`, the oldest entry has been dropped from
tier-2 entirely, so a subsequent `get` for its key returns absent. -/
theorem C7_cache_eviction :
    (∀ (N1 N2 : ℕ) (items : List (Str × ℤ × ℚ)),
      1 ≤ N1 → 2 ≤ N2 →
      ((items.map toEntry).map Prod.fst).Nodup →
      (items.map toEntry).Pairwise (fun a b => a.2.time < b.2.time) →
      items.length = N1 + 1 →
      putSeq ⟨[], [], N1, N2⟩ items =
        ⟨(items.map toEntry).drop 1, (items.map toEntry).take 1, N1, N2⟩)
    ∧
    (∀ (N1 N2 : ℕ) (items : List (Str × ℤ × ℚ)) (it0 : Str × ℤ × ℚ),
      1 ≤ N1 → 2 ≤ N2 →
      ((items.map toEntry).map Prod.fst).Nodup →
      (items.map toEntry).Pairwise (fun a b => a.2.time < b.2.time) →
      N1 + N2 ≤ items.length →
      items.head? = some it0 →
      ∀ (ttl now : ℚ),
        (putSeq ⟨[], [], N1, N2⟩ items).get it0.1 ttl now =
          (GetOutcome.miss, putSeq ⟨[], [], N1, N2⟩ items)) := by
  constructor
  · intro N1 N2 items hN1 hN2 hkeys htimes hlen
    rw [putSeq_spec N1 N2 hN1 hN2 items hkeys htimes]
    have hElen : (items.map toEntry).length = N1 + 1 := by
      rw [List.length_map, hlen]
    have h1 : cacheL1State N1 (items.map toEntry) =
        (items.map toEntry).drop 1 := by
      unfold cacheL1State
      rw [hElen, (by omega : N1 + 1 - N1 = 1)]
    have h2 : cacheL2State N1 N2 (items.map toEntry) =
        (items.map toEntry).take 1 := by
      show (if (items.map toEntry).length - N1 < N2 then
          (items.map toEntry).take ((items.map toEntry).length - N1)
         else ((items.map toEntry).take ((items.map toEntry).length - N1)).drop
          ((items.map toEntry).length - N1 - N2 + 1)) = _
      rw [hElen, (by omega : N1 + 1 - N1 = 1), if_pos (by omega)]
    rw [h1, h2]
  · intro N1 N2 items it0 hN1 hN2 hkeys htimes hlen hhead ttl now
    cases items with
    | nil => exact absurd hhead (by simp)
    | cons a rest =>
      have hit0 : it0 = a := by
        simp only [List.head?_cons] at hhead
        exact (Option.some.inj hhead).symm
      rw [hit0]
      rw [putSeq_spec N1 N2 hN1 hN2 (a :: rest) hkeys htimes]
      have hElen : ((a :: rest).map toEntry).length = rest.length + 1 := by
        simp
      have hfresh : (toEntry a).1 ∉ (rest.map toEntry).map Prod.fst := by
        rw [List.map_cons, List.map_cons, List.nodup_cons] at hkeys
        exact hkeys.1
      have hdge : N2 ≤ ((a :: rest).map toEntry).length - N1 := by
        rw [hElen]
        simp only [List.length_cons] at hlen
        omega
      have hlen2 : N1 + N2 ≤ rest.length + 1 := by
        simpa using hlen
      have hL1sub : List.Sublist
          (cacheL1State N1 ((a :: rest).map toEntry)) (rest.map toEntry) := by
        unfold cacheL1State
        rw [List.map_cons]
        refine sublist_drop_cons _ _ _ ?_
        simp only [List.length_cons, List.length_map]
        omega
      have hL2sub : List.Sublist
          (cacheL2State N1 N2 ((a :: rest).map toEntry))
          (rest.map toEntry) := by
        show List.Sublist
          (if ((a :: rest).map toEntry).length - N1 < N2 then
            ((a :: rest).map toEntry).take
              (((a :: rest).map toEntry).length - N1)
           else (((a :: rest).map toEntry).take
              (((a :: rest).map toEntry).length - N1)).drop
            (((a :: rest).map toEntry).length - N1 - N2 + 1)) _
        rw [if_neg (by rw [hElen]; omega)]
        rw [List.map_cons]
        refine sublist_drop_take_cons _ _ _ _ ?_ ?_
        · simp only [List.length_cons, List.length_map]
          omega
        · omega
      have hm1 : lookupKey (cacheL1State N1 ((a :: rest).map toEntry))
          (toEntry a).1 = none :=
        lookup_eq_none_of_not_mem_keys _ _
          (not_mem_keys_sublist hL1sub hfresh)
      have hm2 : lookupKey (cacheL2State N1 N2 ((a :: rest).map toEntry))
          (toEntry a).1 = none :=
        lookup_eq_none_of_not_mem_keys _ _
          (not_mem_keys_sublist hL2sub hfresh)
      exact get_miss_of_absent _ _ ttl now hm1 hm2

/-- C7 witness: the theorem applied at capacities `N1 = 1`, `N2 = 2` —
two puts demote exactly the oldest entry to tier-2, and after three
puts (reaching `N1 + N2`) a `get` of the first key misses. -/
theorem C7_witness :
    (((cacheDemoItems2.map toEntry).map Prod.fst).Nodup ∧
      (cacheDemoItems2.map toEntry).Pairwise
        (fun a b => a.2.time < b.2.time) ∧
      cacheDemoItems2.length = 1 + 1 ∧
      putSeq ⟨[], [], 1, 2⟩ cacheDemoItems2 =
        ⟨(cacheDemoItems2.map toEntry).drop 1,
         (cacheDemoItems2.map toEntry).take 1, 1, 2⟩) ∧
    (1 + 2 ≤ cacheDemoItems3.length ∧
      (putSeq ⟨[], [], 1, 2⟩ cacheDemoItems3).get ['a'] 30 40 =
        (GetOutcome.miss, putSeq ⟨[], [], 1, 2⟩ cacheDemoItems3)) := by
  refine ⟨⟨by decide, by norm_num [cacheDemoItems2, toEntry], by decide, ?_⟩,
    by decide, ?_⟩
  · exact C7_cache_eviction.1 1 2 cacheDemoItems2 (by norm_num) (by norm_num)
      (by decide) (by norm_num [cacheDemoItems2, toEntry]) (by decide)
  · exact C7_cache_eviction.2 1 2 cacheDemoItems3 (['a'], 1, 0) (by norm_num)
      (by norm_num) (by decide) (by norm_num [cacheDemoItems3, toEntry])
      (by decide) (by decide) 30 40

end AndroidMetrics
